import Mathlib

/-!
# Verification of the chunked PDF-extraction pipeline (`src/dataset.py`, `src/utils.py`)

A shallow embedding of the core pure logic of the `DataExtractor` pipeline:
PDF page splitting, the rolling-window rate limiter, the repetition detector
built on `difflib.SequenceMatcher.ratio`, exponential backoff with jitter,
the JSON structural validator, the per-window OCR fallback policy, and the
deduplicate-and-merge pass.

Python strings are modelled as `List Char` (`Str`); Python dicts holding
string fields as insertion-ordered association lists (`Dict`); wall-clock
time as `ℚ` (seconds), with `time.sleep` advancing time by exactly its
argument and the code between two statements taking no time.
-/

set_option maxHeartbeats 1000000
set_option maxRecDepth 100000

/-- Python strings, modelled as lists of characters (one element per code
point, so `len` is `List.length`). -/
abbrev Str := List Char

/-- Model of `str.lower()`. `Char.toLower` lowers the ASCII range, which
covers every character these pipelines compare case-insensitively. -/
def pyLower (s : Str) : Str := s.map Char.toLower

/-- Model of `str.strip()`: remove leading and trailing whitespace. -/
def pyStrip (s : Str) : Str :=
  ((s.dropWhile Char.isWhitespace).reverse.dropWhile Char.isWhitespace).reverse

/-- Helper for `pyWords`: accumulates the current (reversed) word. -/
def pyWordsAux : Str → Str → List Str
  | [], acc => if acc = [] then [] else [acc.reverse]
  | c :: s, acc =>
    if c.isWhitespace then
      if acc = [] then pyWordsAux s [] else acc.reverse :: pyWordsAux s []
    else pyWordsAux s (c :: acc)

/-- Model of `str.split()` with no argument: maximal runs of
non-whitespace characters, empty pieces dropped. -/
def pyWords (s : Str) : List Str := pyWordsAux s []

/-- Model of `' '.join(words)`. -/
def joinSp : List Str → Str
  | [] => []
  | [w] => w
  | w :: ws => w ++ ' ' :: joinSp ws

/-- The "no information" sentinel `"Không có thông tin"` used by the
extraction prompt and the merge logic. -/
def noInfo : Str :=
  ['K', 'h', 'ô', 'n', 'g', ' ', 'c', 'ó', ' ', 't', 'h', 'ô', 'n', 'g', ' ', 't', 'i', 'n']

/-! ## Document splitter: `DataExtractor._split_pdf_file`

The loop walks `start_idx` from 0 in strides of `pages_per_chunk -
overlap_pages`, emitting the 1-based page range `[start_idx+1, end_idx]`
per chunk (this is the range written into each chunk's filename and the
set of pages copied into it).  After advancing, it breaks out early when
the remaining tail is smaller than `overlap_pages`.  The loop has no
guard on `overlap_pages < pages_per_chunk`; we embed it with explicit
fuel so that a run that does not terminate is observable as `none` for
every fuel. -/

/-- One-to-one embedding of the `while start_idx < total_pages` loop of
`_split_pdf_file`.  Returns `some ranges` when the loop finishes within
`fuel` iterations, `none` otherwise. -/
def splitPdfLoop (total ppc ov : ℤ) : ℕ → ℤ → List (ℤ × ℤ) → Option (List (ℤ × ℤ))
  | 0, _, _ => none
  | fuel + 1, start, acc =>
    if start < total then
      let e := min (start + ppc) total
      let acc' := acc ++ [(start + 1, e)]
      let start' := start + (ppc - ov)
      if start' < total ∧ total - start' < ov then some acc'
      else splitPdfLoop total ppc ov fuel start' acc'
    else some acc

/-- `_split_pdf_file` restricted to its observable output: the list of
1-based inclusive page ranges of the produced chunk files. -/
def split_pdf_file (total ppc ov : ℤ) (fuel : ℕ) : Option (List (ℤ × ℤ)) :=
  splitPdfLoop total ppc ov fuel 0 []

/-! ## Backoff controller (quota/429 branch of `_extract_with_model` and
`_call_gemini_with_retry`) -/

/-- `min(INITIAL_BACKOFF * BACKOFF_MULTIPLIER ** retry, MAX_BACKOFF)`. -/
def backoffWait (initial mult maxB : ℚ) (attempt : ℕ) : ℚ :=
  min (initial * mult ^ attempt) maxB

/-- Total wait actually slept on a quota error: `wait_time + jitter` with
`jitter = wait_time * 0.1 * (0.5 - random.random())`, where `r` is the
value returned by `random.random()` (uniform in `[0,1)`). -/
def backoffTotal (initial mult maxB : ℚ) (attempt : ℕ) (r : ℚ) : ℚ :=
  let w := backoffWait initial mult maxB attempt
  w + w * (1 / 10) * (1 / 2 - r)

/-! ## Rate limiter: `DataExtractor.wait_for_rate_limit`

State: the `request_times` deque (`maxlen = REQUESTS_PER_MINUTE`) and
`last_request_time`.  On each acquisition, entered at wall-clock time
`t`: drop timestamps older than 60 s from the front; if the deque is
full, sleep `60 - (t - oldest) + 1` seconds; then, if less than
`60 / N` seconds elapsed since the last request (measured from the entry
time `t`, as the code does), sleep the difference; finally append the
current time.  Sleeps advance the clock exactly; everything else is
instantaneous. -/

structure RLState where
  q : List ℚ
  last : Option ℚ
  deriving Repr, DecidableEq

/-- `while self.request_times and self.request_times[0] < one_minute_ago:
popleft()`. -/
def rlDrop (s : RLState) (t : ℚ) : List ℚ :=
  s.q.dropWhile (fun x => x < t - 60)

/-- Clock after the full-window sleep: if the deque holds `N` entries,
sleep `60 - (current - oldest) + 1` seconds (only when positive). -/
def rlAfterFull (N : ℕ) (q1 : List ℚ) (t : ℚ) : ℚ :=
  if N ≤ q1.length then
    match q1 with
    | [] => t
    | x :: _ => if 0 < 60 - (t - x) then t + (60 - (t - x) + 1) else t
  else t

/-- Clock after the minimum-spacing sleep: if less than `60 / N` seconds
elapsed since the last request (elapsed measured from the entry time `t`,
as the code does), sleep the difference. -/
def rlAfterMin (N : ℕ) (last : Option ℚ) (t t1 : ℚ) : ℚ :=
  match last with
  | some l => if t - l < 60 / N then t1 + (60 / N - (t - l)) else t1
  | none => t1

/-- One call of `wait_for_rate_limit`, entered at time `t`.  Returns the
new state and the timestamp recorded for this call; appending to the
full deque drops its oldest entry (`maxlen = N`). -/
def wait_for_rate_limit (N : ℕ) (s : RLState) (t : ℚ) : RLState × ℚ :=
  let q1 := rlDrop s t
  let t2 := rlAfterMin N s.last t (rlAfterFull N q1 t)
  (⟨if N ≤ q1.length then q1.tail ++ [t2] else q1 ++ [t2], some t2⟩, t2)

/-- Run a sequence of acquisitions; returns the recorded timestamps in
order. -/
def rlRun (N : ℕ) : RLState → List ℚ → List ℚ
  | _, [] => []
  | s, t :: ts =>
    let r := wait_for_rate_limit N s t
    r.2 :: rlRun N r.1 ts

/-- The entry times are admissible: the pipeline is single-threaded and
blocking, so each call enters no earlier than the previous call
returned (i.e. no earlier than the previously recorded timestamp). -/
def rlValid (N : ℕ) : RLState → List ℚ → Bool
  | _, [] => true
  | s, t :: ts =>
    (match s.last with
     | some l => decide (l ≤ t)
     | none => true) && rlValid N (wait_for_rate_limit N s t).1 ts

/-- Invariant tying the limiter state to the full history `hist` of
recorded call timestamps: the history is non-decreasing, the deque is a
suffix of it of length at most `N`, `last_request_time` is its last
entry, any `N+1` consecutive recorded calls span more than a minute
(`gap`), and every timestamp already dropped from the deque is at least
60 s older than the last recorded call. -/
structure RLInv (N : ℕ) (s : RLState) (hist : List ℚ) : Prop where
  mono : ∀ i j, i ≤ j → j < hist.length → hist.getD i 0 ≤ hist.getD j 0
  suff : s.q.IsSuffix hist
  qlen : s.q.length ≤ N
  last_eq : s.last = if hist = [] then none else some (hist.getD (hist.length - 1) 0)
  gap : ∀ i, i + N < hist.length → hist.getD i 0 + 60 ≤ hist.getD (i + N) 0
  dropped : ∀ i, i < hist.length - s.q.length →
    hist.getD i 0 + 60 ≤ hist.getD (hist.length - 1) 0

/-! ## `difflib.SequenceMatcher(None, a, b).ratio()`

Faithful model of CPython's `difflib` for `isjunk = None`: `b2j` maps each
character of `b` to its ascending positions, with "popular" characters
(autojunk: more than `len(b)//100 + 1` occurrences when `len(b) >= 200`)
removed; `find_longest_match` runs the common-suffix DP over `b2j` and then
extends the best block at both ends by directly-equal characters (the junk
extension loops are no-ops because the junk set is empty when
`isjunk = None`); the total matched size over `get_matching_blocks` equals
the recursive sum below (the queue order and the final merge/sort step do
not change the sum), and `ratio` is `2*M/T`. -/

/-- Autojunk: is `c` a popular element of `b`? -/
def bPopular (b : Str) (c : Char) : Bool :=
  decide (200 ≤ b.length) && decide (b.length / 100 + 1 < b.count c)

/-- The `b2j` table at character `c`: ascending positions of `c` in `b`,
empty for popular characters. -/
def b2j (b : Str) (c : Char) : List ℕ :=
  if bPopular b c then []
  else (List.range b.length).filter (fun j => b.getD j ' ' = c)

/-- `(besti, bestj, bestsize)` during `find_longest_match`. -/
structure FLBest where
  bi : ℕ
  bj : ℕ
  sz : ℕ
  deriving Repr, DecidableEq

/-- `j2len.get(k, 0)` on the association-list representation of the DP
row. -/
def alook (m : List (ℕ × ℕ)) (k : ℕ) : ℕ :=
  ((m.find? (fun p => p.1 == k)).map Prod.snd).getD 0

/-- Inner loop of the DP: one row, iterating over the positions `js` of
`a[i]` in `b` (already restricted to `[blo, bhi)`), threading the new row
`acc` and the running best. -/
def flmInner (i : ℕ) : List ℕ → List (ℕ × ℕ) → List (ℕ × ℕ) → FLBest →
    List (ℕ × ℕ) × FLBest
  | [], _, acc, best => (acc, best)
  | j :: js, prev, acc, best =>
    let k := if j = 0 then 1 else alook prev (j - 1) + 1
    let best' := if best.sz < k then ⟨i + 1 - k, j + 1 - k, k⟩ else best
    flmInner i js prev ((j, k) :: acc) best'

/-- Outer loop of the DP over `i ∈ [alo, ahi)`. -/
def flmOuter (a b : Str) (blo bhi : ℕ) : List ℕ → List (ℕ × ℕ) → FLBest → FLBest
  | [], _, best => best
  | i :: is, prev, best =>
    let js := (b2j b (a.getD i ' ')).filter fun j => decide (blo ≤ j) && decide (j < bhi)
    let r := flmInner i js prev [] best
    flmOuter a b blo bhi is r.1 r.2

/-- Backward extension of the best block by directly-equal characters.
Structural recursion on a fuel that is initialised to `bi`: the loop
decrements `bi` once per iteration and can fire only while `alo < bi`, so
the fuel never runs out before the loop condition fails. -/
def extBack (a b : Str) (alo blo : ℕ) : ℕ → ℕ → ℕ → ℕ → ℕ × ℕ × ℕ
  | 0, bi, bj, sz => (bi, bj, sz)
  | fuel + 1, bi, bj, sz =>
    if alo < bi ∧ blo < bj ∧ a.getD (bi - 1) ' ' = b.getD (bj - 1) ' ' then
      extBack a b alo blo fuel (bi - 1) (bj - 1) (sz + 1)
    else (bi, bj, sz)

/-- Forward extension of the best block by directly-equal characters.
Structural recursion on a fuel initialised to `ahi`: the loop increments
`sz` once per iteration and can fire only while `bi + sz < ahi`. -/
def extFwd (a b : Str) (ahi bhi : ℕ) (bi bj : ℕ) : ℕ → ℕ → ℕ
  | 0, sz => sz
  | fuel + 1, sz =>
    if bi + sz < ahi ∧ bj + sz < bhi ∧ a.getD (bi + sz) ' ' = b.getD (bj + sz) ' ' then
      extFwd a b ahi bhi bi bj fuel (sz + 1)
    else sz

/-- `SequenceMatcher.find_longest_match(alo, ahi, blo, bhi)`. -/
def find_longest_match (a b : Str) (alo ahi blo bhi : ℕ) : ℕ × ℕ × ℕ :=
  let best := flmOuter a b blo bhi (List.range' alo (ahi - alo)) [] ⟨alo, blo, 0⟩
  let e := extBack a b alo blo best.bi best.bi best.bj best.sz
  let k := extFwd a b ahi bhi e.1 e.2.1 ahi e.2.2
  (e.1, e.2.1, k)

/-- Total size of all matching blocks of `get_matching_blocks` restricted
to the sub-ranges `[alo, ahi) × [blo, bhi)` (fuel-based embedding of the
queue recursion; `ratioOf` supplies sufficient fuel). -/
def matchTotalF (a b : Str) : ℕ → ℕ → ℕ → ℕ → ℕ → ℕ
  | 0, _, _, _, _ => 0
  | fuel + 1, alo, ahi, blo, bhi =>
    let r := find_longest_match a b alo ahi blo bhi
    if r.2.2 = 0 then 0
    else
      (if alo < r.1 ∧ blo < r.2.1 then matchTotalF a b fuel alo r.1 blo r.2.1 else 0) +
      r.2.2 +
      (if r.1 + r.2.2 < ahi ∧ r.2.1 + r.2.2 < bhi then
        matchTotalF a b fuel (r.1 + r.2.2) ahi (r.2.1 + r.2.2) bhi
      else 0)

/-- Total matched size over the whole strings. -/
def matchTotal (a b : Str) : ℕ :=
  matchTotalF a b (a.length + b.length + 1) 0 a.length 0 b.length

/-- `SequenceMatcher(None, a, b).ratio() = 2*M/T` (`1.0` when both
strings are empty). -/
def ratioOf (a b : Str) : ℚ :=
  if a.length + b.length = 0 then 1
  else 2 * (matchTotal a b : ℚ) / ((a.length : ℚ) + (b.length : ℚ))

/-- `DataExtractor._calculate_similarity`:
`SequenceMatcher(None, text1.lower(), text2.lower()).ratio()`. -/
def calculate_similarity (t1 t2 : Str) : ℚ := ratioOf (pyLower t1) (pyLower t2)

/-! ## Repetition detector: `DataExtractor.is_repetitive` -/

/-- `DataExtractor.is_repetitive(text, threshold)`: reject short texts,
split into three equal word blocks, compare adjacent blocks. -/
def is_repetitive (threshold : ℚ) (text : Str) : Bool :=
  if text.length < 100 then false
  else
    let words := pyWords text
    if words.length < 20 then false
    else
      let cs := words.length / 3
      if cs < 10 then false
      else
        let c1 := joinSp (words.take cs)
        let c2 := joinSp ((words.drop cs).take cs)
        let c3 := joinSp ((words.drop (2 * cs)).take cs)
        decide (threshold < calculate_similarity c1 c2) ||
          decide (threshold < calculate_similarity c2 c3)

/-! ## Python dicts with string keys/values -/

/-- A Python dict with string keys and string values, as an
insertion-ordered association list (real dicts never hold duplicate
keys; where a proof needs this we assume `Nodup` on the keys). -/
abbrev Dict := List (Str × Str)

/-- `d.get(k)` as an `Option`. -/
def dLook (d : Dict) (k : Str) : Option Str :=
  (d.find? (fun p => decide (p.1 = k))).map Prod.snd

/-- `d.get(k, '')`. -/
def dGet (d : Dict) (k : Str) : Str := (dLook d k).getD []

/-- Truthiness of `d.get(k)`: the key is present with a non-empty value. -/
def dTruthy (d : Dict) (k : Str) : Bool := decide (dGet d k ≠ [])

/-- `d[k] = v`: replace in place if the key exists, else append (Python
dict insertion-order semantics). -/
def dSet (d : Dict) (k v : Str) : Dict :=
  if d.any (fun p => decide (p.1 = k)) then d.map (fun p => if p.1 = k then (k, v) else p)
  else d ++ [(k, v)]

def kTenVietNam : Str := String.toList "ten_viet_nam"

def kTenKhoaHoc : Str := String.toList "ten_khoa_hoc"

def kTenBaiThuoc : Str := String.toList "ten_bai_thuoc"

def kTenViThuoc : Str := String.toList "ten_vi_thuoc"

def kLieuLuong : Str := String.toList "lieu_luong"

/-! ## `validate_json_structure` (src/utils.py) -/

/-- A parsed JSON response as seen by `validate_json_structure`: either
not a dict at all, or a dict with the three sequences optionally
present. -/
inductive PyParsed where
  | notDict
  | dict (vi bai cong : Option (List Dict))

/-- Output of the validator: all three sequences present. -/
structure ValidatedResult where
  vi_thuoc : List Dict
  bai_thuoc : List Dict
  cong_thuc : List Dict
  deriving Repr, DecidableEq

/-- `validate_json_structure`: non-dicts are replaced by the empty
result; missing sequences default to `[]`; a herb is kept only when
`herb.get('ten_viet_nam') and herb.get('ten_khoa_hoc')` is truthy. -/
def validate_json_structure : PyParsed → ValidatedResult
  | .notDict => ⟨[], [], []⟩
  | .dict vi bai cong =>
    ⟨(vi.getD []).filter (fun h => dTruthy h kTenVietNam && dTruthy h kTenKhoaHoc),
     bai.getD [], cong.getD []⟩

/-- The validator as the claim words it ("a herb record is removed
exactly when it is missing both its Vietnamese name and its scientific
name", i.e. kept when at least one name is present), for comparison with
the implementation. -/
def validate_json_structure_claimed : PyParsed → ValidatedResult
  | .notDict => ⟨[], [], []⟩
  | .dict vi bai cong =>
    ⟨(vi.getD []).filter (fun h => dTruthy h kTenVietNam || dTruthy h kTenKhoaHoc),
     bai.getD [], cong.getD []⟩

/-! ## Per-window OCR fallback (`_chunk_pdf_pages`, lines 395-442) -/

structure OcrCfg where
  minLen : ℕ
  retryWithFallback : Bool

/-- Truthiness of `text` where `None` models a failed
`_extract_with_model` call and `some s` its stripped text. -/
def pyTruthy : Option Str → Bool
  | none => false
  | some s => decide (s ≠ [])

/-- `len(text)` (only ever evaluated by the code when the option is
truthy). -/
def optLen : Option Str → ℕ
  | none => 0
  | some s => s.length

/-- The per-window body of `_chunk_pdf_pages`: `primary` is the result
of `_extract_with_model` with the primary OCR model for this page
window, `fallback` the result the fallback model would return (consulted
only if the code issues that call).  Returns the accepted chunk text (or
`none` if the window is excluded/fails) and whether the fallback model
was invoked. -/
def chunk_window (cfg : OcrCfg) (primary fallback : Option Str) : Option Str × Bool :=
  let text := primary
  let used := pyTruthy text && decide (optLen text < cfg.minLen) && cfg.retryWithFallback
  let text2 :=
    if used then
      if pyTruthy fallback && decide (optLen text < optLen fallback) then fallback else text
    else text
  (if pyTruthy text2 && decide (cfg.minLen ≤ optLen text2) then text2 else none, used)

/-! ## Deduplicate and merge (`_is_duplicate`, `_merge_duplicate_herbs`,
`_deduplicate_results`) -/

structure DedupCfg where
  useFuzzy : Bool
  simThr : ℚ

/-- `DataExtractor._is_duplicate(herb, existing_herbs)`: entries missing
either identity field count as duplicates ("invalid entry"); otherwise
scan `existing` for an exact case-insensitive Vietnamese-name match, an
exact case-insensitive scientific-name match, or (if enabled) a fuzzy
name match at `SIMILARITY_THRESHOLD`. -/
def is_duplicate (cfg : DedupCfg) (herb : Dict) (existing : List Dict) : Bool :=
  let name := pyStrip (dGet herb kTenVietNam)
  let sci := pyStrip (dGet herb kTenKhoaHoc)
  if name = [] ∨ sci = [] then true
  else
    existing.any fun e =>
      let en := pyStrip (dGet e kTenVietNam)
      let es := pyStrip (dGet e kTenKhoaHoc)
      decide (pyLower name = pyLower en) ||
        (decide (sci ≠ []) && decide (es ≠ []) && decide (pyLower sci = pyLower es)) ||
        (cfg.useFuzzy && decide (cfg.simThr ≤ calculate_similarity name en))

/-- One field-merge step of `_merge_duplicate_herbs`: incoming `(key,
value)` overwrites when the existing value is empty or the sentinel, or
when the values differ and the incoming one is strictly longer. -/
def mergeStep (m : Dict) (kv : Str × Str) : Dict :=
  if kv.2 ≠ [] ∧ kv.2 ≠ noInfo then
    let ex := dGet m kv.1
    if ex = [] ∨ ex = noInfo then dSet m kv.1 kv.2
    else if ex ≠ kv.2 ∧ ex.length < kv.2.length then dSet m kv.1 kv.2
    else m
  else m

/-- `DataExtractor._merge_duplicate_herbs(herb1, herb2)`: start from a
copy of `herb1` and fold every item of `herb2` through `mergeStep`. -/
def merge_duplicate_herbs (h1 h2 : Dict) : Dict := h2.foldl mergeStep h1

/-- Specification of one merge step at the incoming key, as a function
of the existing value `ex` and the incoming value `v`. -/
def mergeField (ex v : Str) : Str :=
  if v ≠ [] ∧ v ≠ noInfo then
    if ex = [] ∨ ex = noInfo then v
    else if ex ≠ v ∧ ex.length < v.length then v
    else ex
  else ex

/-- The merge loop of `_deduplicate_results`: merge `herb` into the
first existing record whose raw `ten_viet_nam` is similar at the
threshold (no-op when none matches). -/
def mergeIntoFirst (cfg : DedupCfg) (uniq : List Dict) (herb : Dict) : List Dict :=
  match uniq.findIdx? (fun e =>
      decide (cfg.simThr ≤ calculate_similarity (dGet herb kTenVietNam) (dGet e kTenVietNam))) with
  | some i => uniq.set i (merge_duplicate_herbs (uniq.getD i []) herb)
  | none => uniq

/-- The herb loop of `_deduplicate_results`, threading the
`unique_herbs` accumulator. -/
def dedupHerbsGo (cfg : DedupCfg) : List Dict → List Dict → List Dict
  | uniq, [] => uniq
  | uniq, herb :: rest =>
    if is_duplicate cfg herb uniq then dedupHerbsGo cfg (mergeIntoFirst cfg uniq herb) rest
    else dedupHerbsGo cfg (uniq ++ [herb]) rest

/-- The herb pass of `_deduplicate_results`. -/
def dedupHerbs (cfg : DedupCfg) (l : List Dict) : List Dict := dedupHerbsGo cfg [] l

/-- Normalised prescription name: `p.get('ten_bai_thuoc', '').strip().lower()`. -/
def presName (p : Dict) : Str := pyLower (pyStrip (dGet p kTenBaiThuoc))

/-- The prescription pass of `_deduplicate_results` (`seen` is the set
of already-seen normalised names). -/
def dedupPresGo : List Str → List Dict → List Dict
  | _, [] => []
  | seen, p :: rest =>
    let n := presName p
    if n ≠ [] ∧ n ∉ seen then p :: dedupPresGo (n :: seen) rest
    else dedupPresGo seen rest

/-- Normalised formula key: `(prescription name, herb name, dosage)`. -/
def formulaKey (f : Dict) : Str × Str × Str :=
  (pyLower (pyStrip (dGet f kTenBaiThuoc)), pyLower (pyStrip (dGet f kTenViThuoc)),
    pyStrip (dGet f kLieuLuong))

/-- The formula pass of `_deduplicate_results`. -/
def dedupFormGo : List (Str × Str × Str) → List Dict → List Dict
  | _, [] => []
  | seen, f :: rest =>
    let key := formulaKey f
    if key ∉ seen ∧ key.1 ≠ [] ∧ key.2.1 ≠ [] then f :: dedupFormGo (key :: seen) rest
    else dedupFormGo seen rest

/-- The accumulated result record passed to `_deduplicate_results`. -/
structure AggregateResult where
  vi_thuoc : List Dict
  bai_thuoc : List Dict
  cong_thuc : List Dict
  deriving Repr, DecidableEq

/-- `DataExtractor._deduplicate_results`. -/
def deduplicate_results (cfg : DedupCfg) (r : AggregateResult) : AggregateResult :=
  ⟨dedupHerbs cfg r.vi_thuoc, dedupPresGo [] r.bai_thuoc, dedupFormGo [] r.cong_thuc⟩

/-- The default deduplication settings (`USE_FUZZY_MATCHING = True`,
`SIMILARITY_THRESHOLD = 0.85`). -/
def cfgDefault : DedupCfg := ⟨true, 17 / 20⟩

/-- Herb records exercising the dedup pass: `cexH1` and `cexH3` share
the Vietnamese name, `cexH2` and `cexH3` share the scientific name. -/
def cexH1 : Dict := [(kTenVietNam, String.toList "AA"), (kTenKhoaHoc, String.toList "S")]

def cexH2 : Dict := [(kTenVietNam, String.toList "BB"), (kTenKhoaHoc, String.toList "TX")]

def cexH3 : Dict := [(kTenVietNam, String.toList "AA"), (kTenKhoaHoc, String.toList "TX")]

def cexR : AggregateResult := ⟨[cexH1, cexH2, cexH3], [], []⟩

/-- Correctness data for a DP row entry `(j, k)` of `find_longest_match`
whose chains end at a-index `r`: the chain is `k` long, stays within
`[alo, ·]` and `[blo, bhi)`, and matches characterwise. -/
structure EntryOk (a b : Str) (alo blo bhi : ℕ) (r : ℕ) (e : ℕ × ℕ) : Prop where
  hk1 : 1 ≤ e.2
  hjlo : blo ≤ e.1
  hjhi : e.1 < bhi
  hkj : blo + e.2 ≤ e.1 + 1
  hki : alo + e.2 ≤ r + 1
  hch : ∀ t, t < e.2 → a.getD (r - t) ' ' = b.getD (e.1 - t) ' '

/-- Correctness data for the running best block of `find_longest_match`:
in range, characterwise equal, and equal to the initial `(alo, blo, 0)`
when empty. -/
structure BestOk (a b : Str) (alo ahi blo bhi : ℕ) (best : FLBest) : Prop where
  hbi : alo ≤ best.bi
  hbj : blo ≤ best.bj
  hbnd : best.sz ≠ 0 → best.bi + best.sz ≤ ahi ∧ best.bj + best.sz ≤ bhi
  hch : ∀ t, t < best.sz → a.getD (best.bi + t) ' ' = b.getD (best.bj + t) ' '
  hz : best.sz = 0 → best.bi = alo ∧ best.bj = blo

/-- Specification of a `find_longest_match` result `(i, j, k)`: in range,
characterwise matching, and anchored at `(alo, blo)` when empty. -/
structure FLOk (a b : Str) (alo ahi blo bhi : ℕ) (r : ℕ × ℕ × ℕ) : Prop where
  hio : alo ≤ r.1
  hjo : blo ≤ r.2.1
  hbnd : r.2.2 ≠ 0 → r.1 + r.2.2 ≤ ahi ∧ r.2.1 + r.2.2 ≤ bhi
  hch : ∀ t, t < r.2.2 → a.getD (r.1 + t) ' ' = b.getD (r.2.1 + t) ' '
  hz : r.2.2 = 0 → r.1 = alo ∧ r.2.1 = blo

/-- Word group 1 of the C6 counterexample: the words of
`"abc def ghi jkl mno pqr stu vwx yz0 123"`. -/
def cexG1 : List Str :=
  ["abc".toList, "def".toList, "ghi".toList, "jkl".toList, "mno".toList,
   "pqr".toList, "stu".toList, "vwx".toList, "yz0".toList, "123".toList]

/-- Word group 2 of the C6 counterexample: the words of
`"abcd ef ghij kl mnop qr stuv wx yz01 23"` (same characters as `cexG1`,
re-spaced, so no word is shared with `cexG1`). -/
def cexG2 : List Str :=
  ["abcd".toList, "ef".toList, "ghij".toList, "kl".toList, "mnop".toList,
   "qr".toList, "stuv".toList, "wx".toList, "yz01".toList, "23".toList]

/-- Word group 3 of the C6 counterexample: the words of
`"ab cdef gh ijkl mn opqr st uvwx yz 0123"`. -/
def cexG3 : List Str :=
  ["ab".toList, "cdef".toList, "gh".toList, "ijkl".toList, "mn".toList,
   "opqr".toList, "st".toList, "uvwx".toList, "yz".toList, "0123".toList]

/-- A word group over the alphabet `{a, b}`, used to witness the
character-disjoint direction of the repetition detector. -/
def cexD1 : List Str :=
  ["aa".toList, "ab".toList, "ba".toList, "bb".toList, "aab".toList,
   "abb".toList, "bab".toList, "bba".toList, "aabb".toList, "abba".toList]

/-- A word group over the alphabet `{c, d}`. -/
def cexD2 : List Str :=
  ["cc".toList, "cd".toList, "dc".toList, "dd".toList, "ccd".toList,
   "cdd".toList, "dcd".toList, "ddc".toList, "ccdd".toList, "cddc".toList]

/-- A word group over the alphabet `{e, f}`. -/
def cexD3 : List Str :=
  ["ee".toList, "ef".toList, "fe".toList, "ff".toList, "eef".toList,
   "eff".toList, "fef".toList, "ffe".toList, "eeff".toList, "effe".toList]

/-! # Theorems -/

/-! ## C1: splitting a 10-page document with `pages_per_chunk = 6`,
`overlap_pages = 2` -/

/-- C1, counterexample.  The claim states that a 10-page document split
with `pages_per_chunk = 6` and `overlap_pages = 2` yields exactly the two
page ranges [1-6] and [5-10].  The loop in fact continues past
`start_idx = 8` (the tail of 2 pages is not `< overlap_pages = 2`, so the
merge-break does not fire) and emits a third chunk [9-10]. -/
theorem C1_split_10_6_2_cex :
    split_pdf_file 10 6 2 11 ≠ some [(1, 6), (5, 10)] := by
  decide

/-- C1, amended: a 10-page document split with `pages_per_chunk = 6` and
`overlap_pages = 2` produces exactly three chunks, with 1-based page
ranges [1-6], [5-10] and [9-10], in that order (the third being entirely
contained in the second). -/
theorem C1_split_10_6_2 :
    split_pdf_file 10 6 2 11 = some [(1, 6), (5, 10), (9, 10)] := by
  decide

/-! ## C3: `overlap_pages >= pages_per_chunk` -/

/-- C3: with `total_pages = 10`, `pages_per_chunk = 6`,
`overlap_pages = 6` the stride is 0, `start_idx` never advances, the
merge-break condition `total - start < overlap` is never true
(10 < 6 fails), and the `while start_idx < total_pages` loop never
terminates: no fuel suffices.  No `InvalidRangeError` (nor any
validation of `overlap_pages < pages_per_chunk`) exists anywhere in the
code. -/
theorem C3_split_diverges (fuel : ℕ) (acc : List (ℤ × ℤ)) :
    splitPdfLoop 10 6 6 fuel 0 acc = none := by
  induction fuel generalizing acc with
  | zero => rfl
  | succ n ih =>
    simp only [splitPdfLoop]
    norm_num
    exact ih _

/-! ## C7: backoff with jitter -/

/-- C7, counterexample.  The claim reads the jitter as symmetric "up to
±10%" of the capped exponential wait.  With default settings
(`INITIAL_BACKOFF = 10`, `BACKOFF_MULTIPLIER = 2`, `MAX_BACKOFF = 120`)
and attempt 0 the wait is 10, so a +10% jitter would give a total wait of
11; but `jitter = wait * 0.1 * (0.5 - random())` never exceeds +5% of the
wait, so no admissible draw of `random()` produces 11. -/
theorem C7_backoff_cex :
    ¬ (∀ j : ℚ, |j| ≤ backoffWait 10 2 120 0 / 10 →
        ∃ r : ℚ, 0 ≤ r ∧ r < 1 ∧
          backoffTotal 10 2 120 0 r = backoffWait 10 2 120 0 + j) := by
  intro h
  obtain ⟨r, h0, h1, he⟩ := h 1 (by norm_num [backoffWait])
  rw [backoffTotal, backoffWait] at he
  norm_num at he
  linarith

/-- C7, amended: on a quota/transient (429/RESOURCE_EXHAUSTED) error at
attempt `n`, the total wait equals
`min(initial_backoff * multiplier^n, max_backoff)` plus a jitter lying in
`(-5%, +5%]` of that value; the `+5%` end is attained at `random() = 0`. -/
theorem C7_backoff (initial mult maxB : ℚ) (hI : 0 ≤ initial) (hM : 0 ≤ mult)
    (hB : 0 ≤ maxB) (n : ℕ) (r : ℚ) (h0 : 0 ≤ r) (h1 : r < 1) :
    backoffWait initial mult maxB n - backoffWait initial mult maxB n / 20 ≤
      backoffTotal initial mult maxB n r ∧
    backoffTotal initial mult maxB n r ≤
      backoffWait initial mult maxB n + backoffWait initial mult maxB n / 20 ∧
    backoffTotal initial mult maxB n 0 =
      backoffWait initial mult maxB n + backoffWait initial mult maxB n / 20 := by
  have hw : 0 ≤ backoffWait initial mult maxB n :=
    le_min (mul_nonneg hI (pow_nonneg hM n)) hB
  simp only [backoffTotal]
  refine ⟨?_, ?_, by ring⟩
  · nlinarith [mul_nonneg hw (sub_nonneg.2 h1.le)]
  · nlinarith [mul_nonneg hw h0]

/-- Witness for C7 at `initial = 10`, `mult = 2`, `maxB = 120`,
attempt 0, `random() = 1/2`. -/
theorem C7_backoff_witness :
    (19 / 2 : ℚ) ≤ backoffTotal 10 2 120 0 (1 / 2) ∧
      backoffTotal 10 2 120 0 (1 / 2) ≤ 21 / 2 := by
  have h := C7_backoff 10 2 120 (by norm_num) (by norm_num) (by norm_num) 0 (1 / 2)
    (by norm_num) (by norm_num)
  rw [show backoffWait 10 2 120 0 = 10 from by norm_num [backoffWait]] at h
  exact ⟨by linarith [h.1], by linarith [h.2.1]⟩

/-! ## C8: structural validator -/

/-- C8, counterexample.  A herb with a Vietnamese name but no scientific
name is *not* missing both names, so per the claim it should be kept; the
code removes it (`if herb.get('ten_viet_nam') and herb.get('ten_khoa_hoc')`
keeps a record only when *both* are truthy). -/
theorem C8_validate_cex :
    validate_json_structure (.dict (some [[(kTenVietNam, ['X'])]]) none none) ≠
      validate_json_structure_claimed (.dict (some [[(kTenVietNam, ['X'])]]) none none) := by
  decide

/-- C8, amended: the validator always returns all three sequences
(missing ones, or a non-dict input, defaulting to empty lists), and a
herb record is kept exactly when *both* its Vietnamese name and its
scientific name are present and non-empty — i.e. removed when it is
missing either one. -/
theorem C8_validate (vi bai cong : Option (List Dict)) (h : Dict) :
    (h ∈ (validate_json_structure (.dict vi bai cong)).vi_thuoc ↔
      h ∈ vi.getD [] ∧ dTruthy h kTenVietNam = true ∧ dTruthy h kTenKhoaHoc = true) ∧
    (validate_json_structure (.dict vi bai cong)).bai_thuoc = bai.getD [] ∧
    (validate_json_structure (.dict vi bai cong)).cong_thuc = cong.getD [] ∧
    validate_json_structure .notDict = ⟨[], [], []⟩ := by
  refine ⟨?_, rfl, rfl, rfl⟩
  simp [validate_json_structure, List.mem_filter, and_assoc]

/-! ## C9: fallback policy for short primary OCR output -/

/-- C9, counterexample.  The claim states that *every* window whose
primary output is empty or too short triggers the fallback model when one
is configured.  But the guard is `if (text and len(text) < MIN and
RETRY_WITH_FALLBACK)`: a failed/empty primary output (`text` falsy) never
triggers the fallback; the window simply fails. -/
theorem C9_chunk_window_cex :
    ¬ (∀ (cfg : OcrCfg) (p fb : Option Str),
        (¬ pyTruthy p = true ∨ optLen p < cfg.minLen) →
        cfg.retryWithFallback = true → (chunk_window cfg p fb).2 = true) := by
  intro h
  exact absurd
    (h ⟨4, true⟩ none (some (String.toList "abcdef")) (Or.inl (by decide)) rfl)
    (by decide)

/-- C9, amended: when the primary output is *non-empty but shorter* than
the minimum length and a fallback is configured, the fallback model is
invoked once and the window keeps whichever of the two outputs is longer
(the fallback only on a strict improvement), accepting it only if it
meets the minimum length; when the primary output is empty/failed the
window fails without consulting the fallback; and when no fallback is
configured the fallback is never invoked and a short window is excluded
(`TooShort`). -/
theorem C9_chunk_window (cfg : OcrCfg) (p fb : Option Str) :
    (pyTruthy p = true → optLen p < cfg.minLen → cfg.retryWithFallback = true →
      (chunk_window cfg p fb).2 = true ∧
      (chunk_window cfg p fb).1 =
        (if pyTruthy fb = true ∧ optLen p < optLen fb then
          (if pyTruthy fb = true ∧ cfg.minLen ≤ optLen fb then fb else none)
        else none)) ∧
    (pyTruthy p = false →
      (chunk_window cfg p fb).1 = none ∧ (chunk_window cfg p fb).2 = false) ∧
    (cfg.retryWithFallback = false →
      (chunk_window cfg p fb).2 = false ∧
      (chunk_window cfg p fb).1 =
        if pyTruthy p = true ∧ cfg.minLen ≤ optLen p then p else none) := by
  refine ⟨fun h1 h2 h3 => ?_, fun h1 => ?_, fun h1 => ?_⟩
  · have hu : (pyTruthy p && decide (optLen p < cfg.minLen) && cfg.retryWithFallback) = true := by
      simp [h1, h2, h3]
    refine ⟨by simp [chunk_window, hu], ?_⟩
    by_cases hf : pyTruthy fb = true ∧ optLen p < optLen fb
    · have hfb : (pyTruthy fb && decide (optLen p < optLen fb)) = true := by
        simp [hf.1, hf.2]
      simp only [chunk_window, hu, if_true, hfb, if_pos hf]
      by_cases hacc : cfg.minLen ≤ optLen fb
      · simp [hf.1, hacc]
      · simp [hacc, Nat.lt_of_not_le hacc]
    · have hfb : (pyTruthy fb && decide (optLen p < optLen fb)) = false := by
        rcases Decidable.not_and_iff_or_not.1 hf with h | h
        · simp [Bool.eq_false_iff.2 h]
        · simp [Nat.le_of_not_lt (fun hc => h hc)]
      have hshort : (pyTruthy p && decide (cfg.minLen ≤ optLen p)) = false := by
        simp [Nat.not_le.2 h2]
      simp [chunk_window, hu, hfb, hshort, hf]
  · have hu : (pyTruthy p && decide (optLen p < cfg.minLen) && cfg.retryWithFallback) = false := by
      simp [h1]
    simp [chunk_window, hu, h1]
  · have hu : (pyTruthy p && decide (optLen p < cfg.minLen) && cfg.retryWithFallback) = false := by
      simp [h1]
    refine ⟨by simp [chunk_window, hu], ?_⟩
    by_cases hacc : pyTruthy p = true ∧ cfg.minLen ≤ optLen p
    · simp [chunk_window, hu, hacc, hacc.1, hacc.2, h1]
    · have hb : (pyTruthy p && decide (cfg.minLen ≤ optLen p)) = false := by
        rcases Decidable.not_and_iff_or_not.1 hacc with h | h
        · simp [Bool.eq_false_iff.2 h]
        · simp [Nat.lt_of_not_le h]
      simp [chunk_window, hu, hb, hacc, h1]

/-- Witness for C9: `minLen = 4`, primary `"ab"` (short), fallback
`"abcdef"` — the fallback is invoked and its longer output is kept. -/
theorem C9_chunk_window_witness :
    (chunk_window ⟨4, true⟩ (some ['a', 'b']) (some (String.toList "abcdef"))).2 = true ∧
    (chunk_window ⟨4, true⟩ (some ['a', 'b']) (some (String.toList "abcdef"))).1 =
      some (String.toList "abcdef") := by
  have h := (C9_chunk_window ⟨4, true⟩ (some ['a', 'b'])
    (some (String.toList "abcdef"))).1 (by decide) (by decide) rfl
  exact ⟨h.1, by rw [h.2]; decide⟩

/-! ## C5/C10: field-level merge of duplicate herbs -/

theorem dLook_nil (k : Str) : dLook [] k = none := rfl

theorem dLook_cons (p : Str × Str) (d : Dict) (k : Str) :
    dLook (p :: d) k = if p.1 = k then some p.2 else dLook d k := by
  unfold dLook
  rw [List.find?]
  by_cases hp : p.1 = k <;> simp [hp]

/-- Dict lemma: setting key `k` makes lookup at `k` return the new value. -/
theorem dLook_dSet_self (d : Dict) (k v : Str) : dLook (dSet d k v) k = some v := by
  unfold dSet
  split
  case isTrue h =>
    induction d with
    | nil => simp at h
    | cons p d ih =>
      by_cases hp : p.1 = k
      · simp [dLook_cons, hp]
      · have h' : (d.any fun p => decide (p.1 = k)) = true := by
          rcases List.any_eq_true.1 h with ⟨q, hq, hqk⟩
          rcases List.mem_cons.1 hq with rfl | hq'
          · exact absurd (of_decide_eq_true hqk) hp
          · exact List.any_eq_true.2 ⟨q, hq', hqk⟩
        simpa [dLook_cons, hp] using ih h'
  case isFalse h =>
    have h' : ∀ q ∈ d, q.1 ≠ k := by
      intro q hq hc
      exact h (List.any_eq_true.2 ⟨q, hq, by simpa using hc⟩)
    clear h
    induction d with
    | nil => simp [dLook_cons]
    | cons p d ih =>
      have hp := h' p (by simp)
      simp only [List.cons_append, dLook_cons, hp, if_false, if_neg hp]
      exact ih (fun q hq => h' q (by simp [hq]))

theorem dLook_map_ne (d : Dict) (k k' v : Str) (h : k' ≠ k) :
    dLook (d.map fun p => if p.1 = k then (k, v) else p) k' = dLook d k' := by
  have hkk : k ≠ k' := fun hc => h hc.symm
  induction d with
  | nil => rfl
  | cons p d ih =>
    by_cases hp : p.1 = k
    · simp [dLook_cons, hp, hkk, ih]
    · simp [dLook_cons, hp, ih]

theorem dLook_append_ne (d : Dict) (k k' v : Str) (h : k' ≠ k) :
    dLook (d ++ [(k, v)]) k' = dLook d k' := by
  have hkk : k ≠ k' := fun hc => h hc.symm
  induction d with
  | nil => simp [dLook_cons, dLook_nil, hkk]
  | cons p d ih => simp only [List.cons_append, dLook_cons, ih]

/-- Dict lemma: setting key `k` leaves lookups at other keys unchanged. -/
theorem dLook_dSet_ne (d : Dict) (k k' v : Str) (h : k' ≠ k) :
    dLook (dSet d k v) k' = dLook d k' := by
  unfold dSet
  split
  · exact dLook_map_ne d k k' v h
  · exact dLook_append_ne d k k' v h

theorem dGet_dSet_self (m : Dict) (k v : Str) : dGet (dSet m k v) k = v := by
  unfold dGet
  rw [dLook_dSet_self]
  rfl

theorem dGet_mergeStep_self (m : Dict) (kv : Str × Str) :
    dGet (mergeStep m kv) kv.1 = mergeField (dGet m kv.1) kv.2 := by
  simp only [mergeStep, mergeField]
  by_cases h1 : kv.2 ≠ [] ∧ kv.2 ≠ noInfo
  · rw [if_pos h1, if_pos h1]
    by_cases h2 : dGet m kv.1 = [] ∨ dGet m kv.1 = noInfo
    · rw [if_pos h2, if_pos h2, dGet_dSet_self]
    · rw [if_neg h2, if_neg h2]
      by_cases h3 : dGet m kv.1 ≠ kv.2 ∧ (dGet m kv.1).length < kv.2.length
      · rw [if_pos h3, if_pos h3, dGet_dSet_self]
      · rw [if_neg h3, if_neg h3]
  · rw [if_neg h1, if_neg h1]

theorem dGet_mergeStep_ne (m : Dict) (kv : Str × Str) (k : Str) (h : k ≠ kv.1) :
    dGet (mergeStep m kv) k = dGet m k := by
  simp only [mergeStep]
  by_cases h1 : kv.2 ≠ [] ∧ kv.2 ≠ noInfo
  · rw [if_pos h1]
    by_cases h2 : dGet m kv.1 = [] ∨ dGet m kv.1 = noInfo
    · rw [if_pos h2]
      unfold dGet
      rw [dLook_dSet_ne _ _ _ _ h]
    · rw [if_neg h2]
      by_cases h3 : dGet m kv.1 ≠ kv.2 ∧ (dGet m kv.1).length < kv.2.length
      · rw [if_pos h3]
        unfold dGet
        rw [dLook_dSet_ne _ _ _ _ h]
      · rw [if_neg h3]
  · rw [if_neg h1]

/-- Keys not occurring in `herb2` keep their `herb1` value. -/
theorem dGet_merge_not_mem (h2 : Dict) (m : Dict) (k : Str) (h : ∀ kv ∈ h2, kv.1 ≠ k) :
    dGet (merge_duplicate_herbs m h2) k = dGet m k := by
  induction h2 generalizing m with
  | nil => rfl
  | cons kv rest ih =>
    calc dGet (merge_duplicate_herbs m (kv :: rest)) k
        = dGet (merge_duplicate_herbs (mergeStep m kv) rest) k := rfl
      _ = dGet (mergeStep m kv) k := ih _ (fun q hq => h q (by simp [hq]))
      _ = dGet m k := dGet_mergeStep_ne _ _ _ (fun hc => h kv (by simp) hc.symm)

/-- The merged value at a key of `herb2` is `mergeField` of the existing
and incoming values. -/
theorem dGet_merge_mem (h2 : Dict) (hnd : (h2.map Prod.fst).Nodup) (m : Dict) (k v : Str)
    (hkv : (k, v) ∈ h2) : dGet (merge_duplicate_herbs m h2) k = mergeField (dGet m k) v := by
  induction h2 generalizing m with
  | nil => simp at hkv
  | cons kv rest ih =>
    rcases List.mem_cons.1 hkv with heq | hrest
    · have hkv1 : kv = (k, v) := heq.symm
      subst hkv1
      have hnk : ∀ q ∈ rest, q.1 ≠ k := by
        intro q hq hc
        exact (List.nodup_cons.1 hnd).1 (by simpa [hc] using List.mem_map_of_mem Prod.fst hq)
      calc dGet (merge_duplicate_herbs m ((k, v) :: rest)) k
          = dGet (merge_duplicate_herbs (mergeStep m (k, v)) rest) k := rfl
        _ = dGet (mergeStep m (k, v)) k := dGet_merge_not_mem _ _ _ hnk
        _ = mergeField (dGet m k) v := dGet_mergeStep_self m (k, v)
    · have hne : k ≠ kv.1 := by
        intro hc
        exact (List.nodup_cons.1 hnd).1
          (by simpa [hc.symm] using List.mem_map_of_mem Prod.fst hrest)
      calc dGet (merge_duplicate_herbs m (kv :: rest)) k
          = dGet (merge_duplicate_herbs (mergeStep m kv) rest) k := rfl
        _ = mergeField (dGet (mergeStep m kv) k) v := ih (List.nodup_cons.1 hnd).2 _ hrest
        _ = mergeField (dGet m k) v := by rw [dGet_mergeStep_ne _ _ _ hne]

/-- C5: the field-level merge rule.  For a key `k` of the incoming herb
with value `v` non-empty and not the sentinel: if the existing value is
empty (or the key absent) or the sentinel, the merged value is `v`; if
both are non-empty non-sentinel and differ, the merged value is the
longer of the two (the existing one on a length tie). -/
theorem C5_merge_rule (h1 h2 : Dict) (hnd : (h2.map Prod.fst).Nodup) (k v : Str)
    (hkv : (k, v) ∈ h2) (hv1 : v ≠ []) (hv2 : v ≠ noInfo) :
    ((dGet h1 k = [] ∨ dGet h1 k = noInfo) → dGet (merge_duplicate_herbs h1 h2) k = v) ∧
    (dGet h1 k ≠ [] → dGet h1 k ≠ noInfo → dGet h1 k ≠ v →
      dGet (merge_duplicate_herbs h1 h2) k =
        if (dGet h1 k).length < v.length then v else dGet h1 k) := by
  rw [dGet_merge_mem h2 hnd h1 k v hkv]
  unfold mergeField
  rw [if_pos ⟨hv1, hv2⟩]
  constructor
  · intro hex
    rw [if_pos hex]
  · intro he1 he2 hne
    rw [if_neg (by tauto)]
    by_cases hlen : (dGet h1 k).length < v.length
    · rw [if_pos ⟨hne, hlen⟩, if_pos hlen]
    · rw [if_neg (by tauto), if_neg hlen]

/-- Witness for C5: sentinel and shorter-value cases at concrete
records. -/
theorem C5_merge_rule_witness :
    dGet (merge_duplicate_herbs [(['x'], noInfo)] [(['x'], ['a', 'b', 'c'])]) ['x'] =
      ['a', 'b', 'c'] ∧
    dGet (merge_duplicate_herbs [(['y'], ['a', 'b'])]
        [(['y'], ['a', 'b', 'c', 'd', 'e', 'f'])]) ['y'] =
      ['a', 'b', 'c', 'd', 'e', 'f'] := by
  constructor
  · exact (C5_merge_rule [(['x'], noInfo)] [(['x'], ['a', 'b', 'c'])] (by decide) ['x']
      ['a', 'b', 'c'] (by decide) (by decide) (by decide)).1 (by right; decide)
  · have h := (C5_merge_rule [(['y'], ['a', 'b'])]
      [(['y'], ['a', 'b', 'c', 'd', 'e', 'f'])] (by decide) ['y']
      ['a', 'b', 'c', 'd', 'e', 'f'] (by decide) (by decide) (by decide)).2
      (by decide) (by decide) (by decide)
    rw [h]
    decide

/-- Value provenance through one merge step. -/
theorem dLook_mergeStep_cases (m : Dict) (kv : Str × Str) (k : Str) :
    dLook (mergeStep m kv) k = dLook m k ∨
      (k = kv.1 ∧ dLook (mergeStep m kv) k = some kv.2) := by
  simp only [mergeStep]
  by_cases h1 : kv.2 ≠ [] ∧ kv.2 ≠ noInfo
  · rw [if_pos h1]
    by_cases h2 : dGet m kv.1 = [] ∨ dGet m kv.1 = noInfo
    · rw [if_pos h2]
      by_cases hk : k = kv.1
      · exact Or.inr ⟨hk, by rw [hk, dLook_dSet_self]⟩
      · exact Or.inl (dLook_dSet_ne _ _ _ _ hk)
    · rw [if_neg h2]
      by_cases h3 : dGet m kv.1 ≠ kv.2 ∧ (dGet m kv.1).length < kv.2.length
      · rw [if_pos h3]
        by_cases hk : k = kv.1
        · exact Or.inr ⟨hk, by rw [hk, dLook_dSet_self]⟩
        · exact Or.inl (dLook_dSet_ne _ _ _ _ hk)
      · rw [if_neg h3]
        exact Or.inl rfl
  · rw [if_neg h1]
    exact Or.inl rfl

/-- Value provenance through the whole merge: every value in the merged
record comes verbatim from `m` or from an entry of `h2`. -/
theorem dLook_merge_cases (h2 : Dict) (m : Dict) (k v : Str)
    (h : dLook (merge_duplicate_herbs m h2) k = some v) :
    dLook m k = some v ∨ (k, v) ∈ h2 := by
  induction h2 generalizing m with
  | nil => exact Or.inl h
  | cons kv rest ih =>
    have h' : dLook (merge_duplicate_herbs (mergeStep m kv) rest) k = some v := h
    rcases ih (mergeStep m kv) h' with hstep | hrest
    · rcases dLook_mergeStep_cases m kv k with hsame | ⟨hk, hval⟩
      · exact Or.inl (hsame ▸ hstep)
      · rw [hval] at hstep
        right
        have : v = kv.2 := by injection hstep.symm
        rw [hk, this]
        simp
    · exact Or.inr (by simp [hrest])

/-- First-match lookup of a present key under distinct keys. -/
theorem dLook_of_mem (d : Dict) (hnd : (d.map Prod.fst).Nodup) (k v : Str)
    (hkv : (k, v) ∈ d) : dLook d k = some v := by
  induction d with
  | nil => simp at hkv
  | cons p rest ih =>
    rcases List.mem_cons.1 hkv with heq | hrest
    · rw [← heq, dLook_cons, if_pos rfl]
    · have hne : p.1 ≠ k := by
        intro hc
        exact (List.nodup_cons.1 hnd).1
          (by simpa [hc] using List.mem_map_of_mem Prod.fst hrest)
      rw [dLook_cons, if_neg hne]
      exact ih (List.nodup_cons.1 hnd).2 hrest

/-- C10: merging fabricates no data.  Every value of the merged record at
any key equals `herb1`'s value or `herb2`'s value at that key, and every
key of the merged record is a key of `herb1` or of `herb2`. -/
theorem C10_merge_no_fabrication (h1 h2 : Dict) (hnd : (h2.map Prod.fst).Nodup) (k : Str) :
    (∀ v, dLook (merge_duplicate_herbs h1 h2) k = some v →
      dLook h1 k = some v ∨ dLook h2 k = some v) ∧
    (dLook (merge_duplicate_herbs h1 h2) k ≠ none →
      dLook h1 k ≠ none ∨ dLook h2 k ≠ none) := by
  constructor
  · intro v hv
    rcases dLook_merge_cases h2 h1 k v hv with h | h
    · exact Or.inl h
    · exact Or.inr (dLook_of_mem h2 hnd k v h)
  · intro hne
    rcases hv : dLook (merge_duplicate_herbs h1 h2) k with _ | v
    · exact absurd hv hne
    · rcases dLook_merge_cases h2 h1 k v hv with h | h
      · exact Or.inl (by simp [h])
      · exact Or.inr (by simp [dLook_of_mem h2 hnd k v h])

/-- Witness for C10 at concrete two-field records. -/
theorem C10_merge_no_fabrication_witness :
    dLook [(['a'], ['1']), (['b'], ['2', '2'])] ['b'] = some ['9', '9', '9'] ∨
      dLook [(['b'], ['9', '9', '9']), (['c'], ['3'])] ['b'] = some ['9', '9', '9'] := by
  have h := (C10_merge_no_fabrication [(['a'], ['1']), (['b'], ['2', '2'])]
    [(['b'], ['9', '9', '9']), (['c'], ['3'])] (by decide) ['b']).1
  rcases h ['9', '9', '9'] (by decide) with hc | hc
  · exact Or.inl hc
  · exact Or.inr hc

/-! ## C4: deduplication idempotence -/

theorem sim_BB_AA : calculate_similarity (String.toList "BB") (String.toList "AA") = 0 := by
  unfold calculate_similarity ratioOf
  rw [show matchTotal (pyLower (String.toList "BB")) (pyLower (String.toList "AA")) = 0
        from by decide,
      show (pyLower (String.toList "BB")).length = 2 from by decide,
      show (pyLower (String.toList "AA")).length = 2 from by decide]
  norm_num

theorem sim_AA_AA : calculate_similarity (String.toList "AA") (String.toList "AA") = 1 := by
  unfold calculate_similarity ratioOf
  rw [show matchTotal (pyLower (String.toList "AA")) (pyLower (String.toList "AA")) = 2
        from by decide,
      show (pyLower (String.toList "AA")).length = 2 from by decide]
  norm_num

theorem dedup_hd2 : is_duplicate cfgDefault cexH2 [cexH1] = false := by
  have hfuzz : decide (cfgDefault.simThr ≤
      calculate_similarity (pyStrip (dGet cexH2 kTenVietNam))
        (pyStrip (dGet cexH1 kTenVietNam))) = false := by
    rw [show pyStrip (dGet cexH2 kTenVietNam) = String.toList "BB" from by decide,
        show pyStrip (dGet cexH1 kTenVietNam) = String.toList "AA" from by decide,
        sim_BB_AA]
    exact decide_eq_false (by norm_num [cfgDefault])
  simp only [is_duplicate]
  rw [if_neg (by decide)]
  simp only [List.any_cons, List.any_nil, hfuzz]
  decide

theorem dedup_hm3 : mergeIntoFirst cfgDefault [cexH1, cexH2] cexH3 = [cexH3, cexH2] := by
  have hpA : decide (cfgDefault.simThr ≤
      calculate_similarity (dGet cexH3 kTenVietNam) (dGet cexH1 kTenVietNam)) = true := by
    rw [show dGet cexH3 kTenVietNam = String.toList "AA" from by decide,
        show dGet cexH1 kTenVietNam = String.toList "AA" from by decide,
        sim_AA_AA]
    exact decide_eq_true (by norm_num [cfgDefault])
  simp only [mergeIntoFirst, List.findIdx?_cons, hpA, if_true]
  decide

theorem dedup_hm2 : mergeIntoFirst cfgDefault [cexH3] cexH2 = [cexH3] := by
  have hpB : decide (cfgDefault.simThr ≤
      calculate_similarity (dGet cexH2 kTenVietNam) (dGet cexH3 kTenVietNam)) = false := by
    rw [show dGet cexH2 kTenVietNam = String.toList "BB" from by decide,
        show dGet cexH3 kTenVietNam = String.toList "AA" from by decide,
        sim_BB_AA]
    exact decide_eq_false (by norm_num [cfgDefault])
  simp only [mergeIntoFirst, List.findIdx?_cons, List.findIdx?_nil, hpB]
  decide

theorem dedup_pass1 : dedupHerbs cfgDefault [cexH1, cexH2, cexH3] = [cexH3, cexH2] := by
  simp only [dedupHerbs, dedupHerbsGo,
    show is_duplicate cfgDefault cexH1 [] = false from by decide,
    dedup_hd2,
    show is_duplicate cfgDefault cexH3 [cexH1, cexH2] = true from by decide,
    if_false, if_true, List.nil_append, List.cons_append, dedup_hm3]
  decide

theorem dedup_pass2 : dedupHerbs cfgDefault [cexH3, cexH2] = [cexH3] := by
  simp only [dedupHerbs, dedupHerbsGo,
    show is_duplicate cfgDefault cexH3 [] = false from by decide,
    show is_duplicate cfgDefault cexH2 [cexH3] = true from by decide,
    if_false, if_true, List.nil_append, dedup_hm2]
  decide

/-- C4, counterexample.  With the default settings, deduplicating
`cexR` merges `cexH3` into `cexH1`, which rewrites `cexH1`'s scientific
name to `TX`; the second pass then finds `cexH2` to be a duplicate of the
rewritten record (same scientific name) and drops it.  So
`dedup(dedup(R)) ≠ dedup(R)`: the pass is not idempotent. -/
theorem C4_dedup_not_idem :
    deduplicate_results cfgDefault (deduplicate_results cfgDefault cexR) ≠
      deduplicate_results cfgDefault cexR := by
  have hr1 : deduplicate_results cfgDefault cexR =
      AggregateResult.mk [cexH3, cexH2] [] [] := by
    show AggregateResult.mk (dedupHerbs cfgDefault [cexH1, cexH2, cexH3])
      (dedupPresGo [] []) (dedupFormGo [] []) = _
    rw [dedup_pass1]
    rfl
  have hr2 : deduplicate_results cfgDefault (AggregateResult.mk [cexH3, cexH2] [] []) =
      AggregateResult.mk [cexH3] [] [] := by
    show AggregateResult.mk (dedupHerbs cfgDefault [cexH3, cexH2])
      (dedupPresGo [] []) (dedupFormGo [] []) = _
    rw [dedup_pass2]
    rfl
  rw [hr1, hr2]
  decide

/-- Every prescription kept by the pass has a non-empty normalised name
not in the incoming `seen` set. -/
theorem dedupPres_mem (l : List Dict) (seen : List Str) (p : Dict)
    (hp : p ∈ dedupPresGo seen l) : presName p ≠ [] ∧ presName p ∉ seen := by
  induction l generalizing seen with
  | nil => simp [dedupPresGo] at hp
  | cons q rest ih =>
    simp only [dedupPresGo] at hp
    by_cases h : presName q ≠ [] ∧ presName q ∉ seen
    · rw [if_pos h] at hp
      rcases List.mem_cons.1 hp with rfl | hp'
      · exact h
      · have hr := ih (presName q :: seen) hp'
        exact ⟨hr.1, fun hc => hr.2 (by simp [hc])⟩
    · rw [if_neg h] at hp
      exact ih seen hp

/-- The kept prescriptions have pairwise distinct normalised names. -/
theorem dedupPres_nodup (l : List Dict) (seen : List Str) :
    ((dedupPresGo seen l).map presName).Nodup := by
  induction l generalizing seen with
  | nil => simp [dedupPresGo]
  | cons q rest ih =>
    simp only [dedupPresGo]
    by_cases h : presName q ≠ [] ∧ presName q ∉ seen
    · rw [if_pos h]
      refine List.nodup_cons.2 ⟨?_, ih (presName q :: seen)⟩
      intro hc
      rcases List.mem_map.1 hc with ⟨p, hp, hpn⟩
      exact (dedupPres_mem rest _ p hp).2 (by simp [hpn])
    · rw [if_neg h]
      exact ih seen

/-- A list of prescriptions with non-empty, unseen, pairwise-distinct
normalised names passes through unchanged. -/
theorem dedupPres_fixed (l : List Dict) (seen : List Str)
    (h1 : ∀ p ∈ l, presName p ≠ [] ∧ presName p ∉ seen)
    (h2 : (l.map presName).Nodup) : dedupPresGo seen l = l := by
  induction l generalizing seen with
  | nil => rfl
  | cons q rest ih =>
    have hq := h1 q (by simp)
    simp only [dedupPresGo]
    rw [if_pos hq]
    congr 1
    refine ih (presName q :: seen) (fun p hp => ⟨(h1 p (by simp [hp])).1, ?_⟩)
      (List.nodup_cons.1 h2).2
    intro hmem
    rcases List.mem_cons.1 hmem with heq | hseen
    · exact (List.nodup_cons.1 h2).1 (heq ▸ List.mem_map_of_mem presName hp)
    · exact (h1 p (by simp [hp])).2 hseen

/-- Every formula kept by the pass has a key with non-empty prescription
and herb names, not in the incoming `seen` set. -/
theorem dedupForm_mem (l : List Dict) (seen : List (Str × Str × Str)) (f : Dict)
    (hf : f ∈ dedupFormGo seen l) :
    formulaKey f ∉ seen ∧ (formulaKey f).1 ≠ [] ∧ (formulaKey f).2.1 ≠ [] := by
  induction l generalizing seen with
  | nil => simp [dedupFormGo] at hf
  | cons q rest ih =>
    simp only [dedupFormGo] at hf
    by_cases h : formulaKey q ∉ seen ∧ (formulaKey q).1 ≠ [] ∧ (formulaKey q).2.1 ≠ []
    · rw [if_pos h] at hf
      rcases List.mem_cons.1 hf with rfl | hf'
      · exact h
      · have hr := ih (formulaKey q :: seen) hf'
        exact ⟨fun hc => hr.1 (by simp [hc]), hr.2⟩
    · rw [if_neg h] at hf
      exact ih seen hf

/-- The kept formulas have pairwise distinct keys. -/
theorem dedupForm_nodup (l : List Dict) (seen : List (Str × Str × Str)) :
    ((dedupFormGo seen l).map formulaKey).Nodup := by
  induction l generalizing seen with
  | nil => simp [dedupFormGo]
  | cons q rest ih =>
    simp only [dedupFormGo]
    by_cases h : formulaKey q ∉ seen ∧ (formulaKey q).1 ≠ [] ∧ (formulaKey q).2.1 ≠ []
    · rw [if_pos h]
      refine List.nodup_cons.2 ⟨?_, ih (formulaKey q :: seen)⟩
      intro hc
      rcases List.mem_map.1 hc with ⟨p, hp, hpn⟩
      exact (dedupForm_mem rest _ p hp).1 (by simp [hpn])
    · rw [if_neg h]
      exact ih seen

/-- A list of formulas with valid, unseen, pairwise-distinct keys passes
through unchanged. -/
theorem dedupForm_fixed (l : List Dict) (seen : List (Str × Str × Str))
    (h1 : ∀ f ∈ l, formulaKey f ∉ seen ∧ (formulaKey f).1 ≠ [] ∧ (formulaKey f).2.1 ≠ [])
    (h2 : (l.map formulaKey).Nodup) : dedupFormGo seen l = l := by
  induction l generalizing seen with
  | nil => rfl
  | cons q rest ih =>
    have hq := h1 q (by simp)
    simp only [dedupFormGo]
    rw [if_pos hq]
    congr 1
    refine ih (formulaKey q :: seen)
      (fun f hf => ⟨?_, (h1 f (by simp [hf])).2⟩) (List.nodup_cons.1 h2).2
    intro hmem
    rcases List.mem_cons.1 hmem with heq | hseen
    · exact (List.nodup_cons.1 h2).1 (heq ▸ List.mem_map_of_mem formulaKey hf)
    · exact (h1 f (by simp [hf])).1 hseen

/-- C4, amended: the deduplication pass is idempotent on the
prescription and formula tables — a second pass keeps `bai_thuoc` and
`cong_thuc` identical, with no further merges, removals or reorderings.
It need not be idempotent on the herb table (`C4_dedup_not_idem`):
merging can rewrite a kept herb's identity fields, so a second pass can
merge further. -/
theorem C4_dedup_idempotent_pres_form (cfg : DedupCfg) (r : AggregateResult) :
    (deduplicate_results cfg (deduplicate_results cfg r)).bai_thuoc =
      (deduplicate_results cfg r).bai_thuoc ∧
    (deduplicate_results cfg (deduplicate_results cfg r)).cong_thuc =
      (deduplicate_results cfg r).cong_thuc := by
  constructor
  · exact dedupPres_fixed _ []
      (fun p hp => ⟨(dedupPres_mem _ _ p hp).1, by simp⟩)
      (dedupPres_nodup _ _)
  · exact dedupForm_fixed _ []
      (fun f hf => ⟨by simp, (dedupForm_mem _ _ f hf).2⟩)
      (dedupForm_nodup _ _)

/-! ## C2: the rolling-window rate limiter -/

theorem rlAfterFull_ge (N : ℕ) (q1 : List ℚ) (t : ℚ) : t ≤ rlAfterFull N q1 t := by
  unfold rlAfterFull
  split
  · match q1 with
    | [] => exact le_refl t
    | x :: rest =>
      dsimp only
      split
      · linarith
      · exact le_refl t
  · exact le_refl t

theorem rlAfterMin_ge (N : ℕ) (last : Option ℚ) (t t1 : ℚ) : t1 ≤ rlAfterMin N last t t1 := by
  unfold rlAfterMin
  match last with
  | none => exact le_refl t1
  | some l =>
    dsimp only
    split
    · linarith
    · exact le_refl t1

theorem rlAfterFull_oldest (N : ℕ) (x : ℚ) (rest : List ℚ) (t : ℚ)
    (hfull : N ≤ (x :: rest).length) : x + 60 ≤ rlAfterFull N (x :: rest) t := by
  unfold rlAfterFull
  rw [if_pos hfull]
  dsimp only
  split
  · linarith
  · linarith

/-- The invariant is preserved by one acquisition whose entry time is at
least the previously recorded timestamp. -/
theorem rl_step (N : ℕ) (hN : 1 ≤ N) (s : RLState) (hist : List ℚ) (t : ℚ)
    (hInv : RLInv N s hist) (ht : ∀ l, s.last = some l → l ≤ t) :
    RLInv N (wait_for_rate_limit N s t).1 (hist ++ [(wait_for_rate_limit N s t).2]) ∧
      t ≤ (wait_for_rate_limit N s t).2 := by
  obtain ⟨pre, hpre⟩ := hInv.suff
  have hw : wait_for_rate_limit N s t =
      (⟨if N ≤ (rlDrop s t).length then
          (rlDrop s t).tail ++ [rlAfterMin N s.last t (rlAfterFull N (rlDrop s t) t)]
        else (rlDrop s t) ++ [rlAfterMin N s.last t (rlAfterFull N (rlDrop s t) t)],
        some (rlAfterMin N s.last t (rlAfterFull N (rlDrop s t) t))⟩,
       rlAfterMin N s.last t (rlAfterFull N (rlDrop s t) t)) := rfl
  set q1 := rlDrop s t with hq1
  set c := rlAfterMin N s.last t (rlAfterFull N q1 t) with hc
  have htc : t ≤ c := le_trans (rlAfterFull_ge N q1 t) (rlAfterMin_ge N s.last t _)
  set m := hist.length with hm
  set d := pre.length with hd
  have hqsplit : s.q.takeWhile (fun x => decide (x < t - 60)) ++ q1 = s.q := by
    rw [hq1]
    exact List.takeWhile_append_dropWhile _ _
  have hlen1 : (s.q.takeWhile (fun x => decide (x < t - 60))).length + q1.length =
      s.q.length := by
    rw [← List.length_append, hqsplit]
  have hmlen : m = d + s.q.length := by
    rw [hm, ← hpre, List.length_append, hd]
  have hq1m : q1.length ≤ s.q.length := by omega
  have hpre2 : (pre ++ s.q.takeWhile (fun x => decide (x < t - 60))) ++ q1 = hist := by
    rw [List.append_assoc, hqsplit, hpre]
  have hpre2len : (pre ++ s.q.takeWhile (fun x => decide (x < t - 60))).length =
      m - q1.length := by
    rw [List.length_append]
    omega
  have hgd1 : ∀ i, i < m → (hist ++ [c]).getD i 0 = hist.getD i 0 := fun i hi =>
    List.getD_append hist [c] 0 i hi
  have hgd2 : (hist ++ [c]).getD m 0 = c := by
    rw [List.getD_append_right hist [c] 0 m (le_refl m)]
    simp
  have hnewlen : (hist ++ [c]).length = m + 1 := by simp [hm]
  have hlast : hist ≠ [] → hist.getD (m - 1) 0 ≤ t := by
    intro hne
    apply ht
    rw [hInv.last_eq, if_neg hne]
  have hkey1 : ∀ i, i < m - q1.length → hist.getD i 0 + 60 ≤ c := by
    intro i hi
    by_cases hid : i < m - s.q.length
    · have h1 := hInv.dropped i hid
      have hne : hist ≠ [] := List.ne_nil_of_length_pos (by omega)
      linarith [hlast hne]
    · have hds : d ≤ i := by omega
      have hstep1 : hist.getD i 0 = s.q.getD (i - d) 0 := by
        rw [← hpre, List.getD_append_right pre s.q 0 i (by omega)]
      have hlt : i - d < (s.q.takeWhile (fun x => decide (x < t - 60))).length := by omega
      have hstep2 : s.q.getD (i - d) 0 =
          (s.q.takeWhile (fun x => decide (x < t - 60))).getD (i - d) 0 := by
        conv_lhs => rw [← hqsplit]
        rw [List.getD_append _ _ 0 _ hlt]
      have hmem : (s.q.takeWhile (fun x => decide (x < t - 60))).getD (i - d) 0 ∈
          s.q.takeWhile (fun x => decide (x < t - 60)) := by
        rw [List.getD_eq_getElem _ _ hlt]
        exact List.getElem_mem hlt
      have hpx := List.mem_takeWhile_imp hmem
      have hxlt : (s.q.takeWhile (fun x => decide (x < t - 60))).getD (i - d) 0 < t - 60 := by
        simpa using hpx
      rw [hstep1, hstep2]
      linarith
  have hkey2 : N ≤ q1.length → hist.getD (m - q1.length) 0 + 60 ≤ c := by
    intro hfull
    have hne : q1 ≠ [] := by
      intro hcon
      rw [hcon] at hfull
      simp at hfull
      omega
    obtain ⟨x, rest, hxr⟩ := List.exists_cons_of_ne_nil hne
    have hx : hist.getD (m - q1.length) 0 = x := by
      rw [← hpre2, List.getD_append_right _ _ 0 _ hpre2len.le, hpre2len]
      simp [hxr]
    have h60 : x + 60 ≤ rlAfterFull N q1 t := by
      rw [hxr]
      exact rlAfterFull_oldest N x rest t (hxr ▸ hfull)
    calc hist.getD (m - q1.length) 0 + 60 = x + 60 := by rw [hx]
      _ ≤ rlAfterFull N q1 t := h60
      _ ≤ c := rlAfterMin_ge N s.last t _
  have hkeynew : ∀ i, i + N = m → hist.getD i 0 + 60 ≤ c := by
    intro i hiN
    by_cases hfull : N ≤ q1.length
    · have hq1N : q1.length = N := le_antisymm (le_trans hq1m hInv.qlen) hfull
      have hieq : i = m - q1.length := by omega
      rw [hieq]
      exact hkey2 hfull
    · exact hkey1 i (by omega)
  refine ⟨?_, by rw [hw]; exact htc⟩
  rw [hw]
  constructor
  case mono =>
    intro i j hij hj
    rw [hnewlen] at hj
    by_cases hjm : j < m
    · rw [hgd1 i (by omega), hgd1 j hjm]
      exact hInv.mono i j hij (by omega)
    · have hjm' : j = m := by omega
      subst hjm'
      rw [hgd2]
      by_cases him : i < m
      · rw [hgd1 i him]
        have hne : hist ≠ [] := List.ne_nil_of_length_pos (by omega)
        calc hist.getD i 0 ≤ hist.getD (m - 1) 0 := hInv.mono i (m - 1) (by omega) (by omega)
          _ ≤ t := hlast hne
          _ ≤ c := htc
      · have hieq : i = m := by omega
        rw [hieq, hgd2]
  case suff =>
    dsimp only
    by_cases hfull : N ≤ q1.length
    · rw [if_pos hfull]
      have hne : q1 ≠ [] := by
        intro hcon
        rw [hcon] at hfull
        simp at hfull
        omega
      obtain ⟨x, rest, hxr⟩ := List.exists_cons_of_ne_nil hne
      refine ⟨(pre ++ s.q.takeWhile (fun x => decide (x < t - 60))) ++ [x], ?_⟩
      rw [hxr]
      show (pre ++ s.q.takeWhile (fun x => decide (x < t - 60))) ++ [x] ++
        ((x :: rest).tail ++ [c]) = hist ++ [c]
      rw [← hpre2, hxr]
      simp
    · rw [if_neg hfull]
      exact ⟨pre ++ s.q.takeWhile (fun x => decide (x < t - 60)),
        by rw [← List.append_assoc, hpre2]⟩
  case qlen =>
    dsimp only
    by_cases hfull : N ≤ q1.length
    · rw [if_pos hfull]
      have hq1N : q1.length = N := le_antisymm (le_trans hq1m hInv.qlen) hfull
      rw [List.length_append, List.length_tail, hq1N]
      simp
      omega
    · rw [if_neg hfull]
      rw [List.length_append]
      simp
      omega
  case last_eq =>
    dsimp only
    rw [if_neg (by simp), hnewlen]
    simp only [Nat.add_sub_cancel]
    rw [hgd2]
  case gap =>
    intro i hi
    rw [hnewlen] at hi
    by_cases hiN : i + N < m
    · rw [hgd1 i (by omega), hgd1 (i + N) hiN]
      exact hInv.gap i hiN
    · have hiN' : i + N = m := by omega
      rw [hgd1 i (by omega), hiN', hgd2]
      exact hkeynew i hiN'
  case dropped =>
    intro i hi
    dsimp only at hi ⊢
    rw [hnewlen, Nat.add_sub_cancel, hgd2]
    by_cases hfull : N ≤ q1.length
    · rw [if_pos hfull] at hi
      have hq1N : q1.length = N := le_antisymm (le_trans hq1m hInv.qlen) hfull
      have hne : q1 ≠ [] := by
        intro hcon
        rw [hcon] at hq1N
        simp at hq1N
        omega
      obtain ⟨x, rest, hxr⟩ := List.exists_cons_of_ne_nil hne
      have htail : q1.tail.length + 1 = N := by
        rw [hxr] at hq1N ⊢
        simpa using hq1N
      have hi' : i < m + 1 - N := by
        rw [hnewlen] at hi
        rw [List.length_append] at hi
        simp at hi
        omega
      rw [hgd1 i (by omega)]
      by_cases hieq : i + N = m
      · exact hkeynew i hieq
      · exact hkey1 i (by omega)
    · rw [if_neg hfull] at hi
      have hi' : i < m - q1.length := by
        rw [hnewlen, List.length_append] at hi
        simp at hi
        omega
      rw [hgd1 i (by omega)]
      exact hkey1 i hi'

theorem rl_inv_init (N : ℕ) : RLInv N ⟨[], none⟩ [] := by
  constructor
  case mono => intro i j _ hj; simp at hj
  case suff => exact ⟨[], rfl⟩
  case qlen => simp
  case last_eq => simp
  case gap => intro i hi; simp at hi
  case dropped => intro i hi; simp at hi

/-- Running any admissible sequence of acquisitions preserves the
invariant over the accumulated history. -/
theorem rl_run_inv (N : ℕ) (hN : 1 ≤ N) :
    ∀ (ts : List ℚ) (s : RLState) (hist : List ℚ),
      RLInv N s hist → rlValid N s ts = true →
      ∃ s', RLInv N s' (hist ++ rlRun N s ts) := by
  intro ts
  induction ts with
  | nil =>
    intro s hist hInv _
    exact ⟨s, by simpa [rlRun] using hInv⟩
  | cons t ts ih =>
    intro s hist hInv hv
    have hv1 : (match s.last with | some l => decide (l ≤ t) | none => true) = true ∧
        rlValid N (wait_for_rate_limit N s t).1 ts = true := by
      simpa [rlValid, Bool.and_eq_true] using hv
    have hle : ∀ l, s.last = some l → l ≤ t := by
      intro l hl
      have := hv1.1
      rw [hl] at this
      exact of_decide_eq_true this
    obtain ⟨hinv', _⟩ := rl_step N hN s hist t hInv hle
    obtain ⟨s', hs'⟩ := ih (wait_for_rate_limit N s t).1
      (hist ++ [(wait_for_rate_limit N s t).2]) hinv' hv1.2
    refine ⟨s', ?_⟩
    have harr : hist ++ rlRun N s (t :: ts) =
        (hist ++ [(wait_for_rate_limit N s t).2]) ++
          rlRun N (wait_for_rate_limit N s t).1 ts := by
      simp [rlRun, List.append_assoc]
    rw [harr]
    exact hs'

/-- Counting lemma: a non-decreasing sequence in which any `N+1`
consecutive entries span more than 60 has at most `N` entries in any
half-open window `(a, a + 60]`. -/
theorem window_count (N : ℕ) (a : ℚ) : ∀ l : List ℚ,
    (∀ i j, i ≤ j → j < l.length → l.getD i 0 ≤ l.getD j 0) →
    (∀ i, i + N < l.length → l.getD i 0 + 60 ≤ l.getD (i + N) 0) →
    (l.filter fun c => decide (a < c ∧ c ≤ a + 60)).length ≤ N := by
  intro l
  induction l with
  | nil => intro _ _; simp
  | cons x l' ih =>
    intro hm hg
    have hm' : ∀ i j, i ≤ j → j < l'.length → l'.getD i 0 ≤ l'.getD j 0 := by
      intro i j hij hj
      have := hm (i + 1) (j + 1) (by omega) (by simp; omega)
      simpa using this
    have hg' : ∀ i, i + N < l'.length → l'.getD i 0 + 60 ≤ l'.getD (i + N) 0 := by
      intro i hi
      have := hg (i + 1) (by simp; omega)
      have harr : i + 1 + N = i + N + 1 := by omega
      rw [harr] at this
      simpa using this
    by_cases hpx : a < x ∧ x ≤ a + 60
    · rw [List.filter_cons_of_pos (by simpa using hpx)]
      have hN1 : 1 ≤ N := by
        by_contra hc
        have hN0 : N = 0 := by omega
        have := hg 0 (by simp [hN0])
        rw [hN0] at this
        simp at this
        linarith
      have hdropped : ∀ y ∈ l'.drop (N - 1), ¬ (a < y ∧ y ≤ a + 60) := by
        intro y hy
        obtain ⟨j, hj, hyj⟩ := List.mem_iff_getElem.1 hy
        have hjlen : N - 1 + j < l'.length := by
          rw [List.length_drop] at hj
          omega
        have hy' : l'.getD (N - 1 + j) 0 = y := by
          rw [List.getD_eq_getElem _ _ hjlen, ← hyj, List.getElem_drop]
        have h1 : (x :: l').getD 0 0 + 60 ≤ (x :: l').getD N 0 := by
          have := hg 0 (by simp; omega)
          rw [Nat.zero_add] at this
          exact this
        have h2 : (x :: l').getD N 0 ≤ (x :: l').getD (N + j) 0 :=
          hm N (N + j) (by omega) (by simp; omega)
        have hN' : (x :: l').getD N 0 = l'.getD (N - 1) 0 := by
          conv_lhs => rw [show N = (N - 1) + 1 from by omega]
          exact List.getD_cons_succ
        have hNj : (x :: l').getD (N + j) 0 = l'.getD (N - 1 + j) 0 := by
          conv_lhs => rw [show N + j = (N - 1 + j) + 1 from by omega]
          exact List.getD_cons_succ
        rintro ⟨hy1, hy2⟩
        rw [List.getD_cons_zero] at h1
        rw [hN', hNj, hy'] at h2
        rw [hN'] at h1
        linarith [hpx.1]
      have hsplit : l'.filter (fun c => decide (a < c ∧ c ≤ a + 60)) =
          (l'.take (N - 1)).filter (fun c => decide (a < c ∧ c ≤ a + 60)) ++
            (l'.drop (N - 1)).filter (fun c => decide (a < c ∧ c ≤ a + 60)) := by
        rw [← List.filter_append, List.take_append_drop]
      have hzero : ((l'.drop (N - 1)).filter fun c => decide (a < c ∧ c ≤ a + 60)) = [] := by
        rw [List.filter_eq_nil_iff]
        intro y hy
        simpa using hdropped y hy
      have hone : ((l'.take (N - 1)).filter fun c => decide (a < c ∧ c ≤ a + 60)).length ≤
          N - 1 :=
        le_trans (List.length_filter_le _ _) (by rw [List.length_take]; omega)
      rw [List.length_cons, hsplit, List.length_append, hzero]
      simp only [List.length_nil]
      omega
    · rw [List.filter_cons_of_neg (by simpa using hpx)]
      exact ih hm' hg'

/-- C2: for a configured limit of `N` calls per minute, over any
admissible sequence of acquisitions from the initial state, (a) no
rolling 60-second window `(a, a + 60]` contains more than `N` recorded
call timestamps, and (b) any `N+1` consecutive recorded calls are more
than (at least) 60 seconds apart.  The per-acquisition mechanism —
discard entries older than 60 s (`rlDrop`), wait until the oldest entry
leaves the window when full (`rlAfterFull`), enforce the `60/N` floor
delay (`rlAfterMin`), then record — is the definition of
`wait_for_rate_limit`. -/
theorem C2_rate_limiter (N : ℕ) (hN : 1 ≤ N) (ts : List ℚ)
    (hv : rlValid N ⟨[], none⟩ ts = true) :
    (∀ a : ℚ, ((rlRun N ⟨[], none⟩ ts).filter
        fun c => decide (a < c ∧ c ≤ a + 60)).length ≤ N) ∧
    (∀ i, i + N < (rlRun N ⟨[], none⟩ ts).length →
      (rlRun N ⟨[], none⟩ ts).getD i 0 + 60 ≤ (rlRun N ⟨[], none⟩ ts).getD (i + N) 0) := by
  obtain ⟨s', hs'⟩ := rl_run_inv N hN ts ⟨[], none⟩ [] (rl_inv_init N) hv
  rw [List.nil_append] at hs'
  exact ⟨fun a => window_count N a _ hs'.mono hs'.gap, hs'.gap⟩

/-- Witness for C2: `N = 1`, entry times 0 and 10.  The second call is
delayed (full window and floor delay) and recorded at t = 111; the
window `(0, 60]` holds at most one call. -/
theorem C2_rate_limiter_witness :
    ((rlRun 1 ⟨[], none⟩ [0, 10]).filter
      fun c => decide ((0 : ℚ) < c ∧ c ≤ 0 + 60)).length ≤ 1 := by
  refine (C2_rate_limiter 1 (by norm_num) [0, 10] ?_).1 0
  norm_num [rlValid, wait_for_rate_limit, rlDrop, rlAfterFull, rlAfterMin]

/-! ## C6: repetition detector -/

theorem pyWordsAux_word (w : Str) (hw : ∀ c ∈ w, ¬ c.isWhitespace) (s acc : Str) :
    pyWordsAux (w ++ s) acc = pyWordsAux s (w.reverse ++ acc) := by
  induction w generalizing acc with
  | nil => simp
  | cons c w ih =>
    have hc : ¬ (c.isWhitespace = true) := by simpa using hw c (by simp)
    show pyWordsAux (c :: (w ++ s)) acc = _
    rw [pyWordsAux, if_neg hc, ih (fun c hc => hw c (by simp [hc])) (c :: acc)]
    simp

theorem pyWords_joinSp :
    ∀ ws : List Str, (∀ w ∈ ws, w ≠ [] ∧ ∀ c ∈ w, ¬ c.isWhitespace) →
      pyWords (joinSp ws) = ws := by
  intro ws
  induction ws with
  | nil => intro _; rfl
  | cons w ws ih =>
    intro hv
    have hw := hv w (by simp)
    have hrev : w.reverse ++ [] ≠ [] := by
      simpa using hw.1
    cases ws with
    | nil =>
      show pyWords (joinSp [w]) = [w]
      unfold pyWords
      rw [show joinSp [w] = w from rfl, ← List.append_nil w,
        pyWordsAux_word w hw.2 [] [], pyWordsAux, if_neg hrev]
      simp
    | cons w2 ws2 =>
      show pyWords (w ++ ' ' :: joinSp (w2 :: ws2)) = w :: w2 :: ws2
      unfold pyWords
      rw [pyWordsAux_word w hw.2 _ [], pyWordsAux,
        if_pos (show (' '.isWhitespace = true) from by decide), if_neg hrev]
      have h1 : (w.reverse ++ []).reverse = w := by simp
      have h2 : pyWordsAux (joinSp (w2 :: ws2)) [] = pyWords (joinSp (w2 :: ws2)) := rfl
      rw [h1, h2, ih (fun u hu => hv u (by simp [hu]))]

theorem joinSp_length :
    ∀ ws : List Str, (∀ w ∈ ws, w ≠ []) → 2 * ws.length ≤ (joinSp ws).length + 1 := by
  intro ws
  induction ws with
  | nil => intro _; simp
  | cons w ws ih =>
    intro hv
    have hw : 1 ≤ w.length := by
      have := hv w (by simp)
      cases w with
      | nil => simp at this
      | cons c cs => simp
    cases ws with
    | nil => simpa [joinSp] using hw
    | cons w2 ws2 =>
      have := ih (fun u hu => hv u (by simp [hu]))
      show 2 * (w2 :: ws2).length + 2 ≤ (w ++ ' ' :: joinSp (w2 :: ws2)).length + 1
      rw [List.length_append]
      simp only [List.length_cons] at this ⊢
      omega

theorem joinSp_count_space :
    ∀ ws : List Str, (∀ w ∈ ws, ∀ c ∈ w, c ≠ ' ') →
      (joinSp ws).count ' ' = ws.length - 1 := by
  intro ws
  induction ws with
  | nil => intro _; simp [joinSp]
  | cons w ws ih =>
    intro hv
    have hw0 : w.count ' ' = 0 := by
      rw [List.count_eq_zero]
      intro hc
      exact hv w (by simp) ' ' hc rfl
    cases ws with
    | nil => simpa [joinSp] using hw0
    | cons w2 ws2 =>
      have hihr := ih (fun u hu => hv u (by simp [hu]))
      show (w ++ ' ' :: joinSp (w2 :: ws2)).count ' ' = (w :: w2 :: ws2).length - 1
      rw [List.count_append, hw0, List.count_cons_self, hihr]
      simp only [List.length_cons]
      omega

theorem pyLower_joinSp : ∀ ws : List Str, pyLower (joinSp ws) = joinSp (ws.map pyLower) := by
  intro ws
  induction ws with
  | nil => rfl
  | cons w ws ih =>
    cases ws with
    | nil => rfl
    | cons w2 ws2 =>
      show pyLower (w ++ ' ' :: joinSp (w2 :: ws2)) =
        pyLower w ++ ' ' :: joinSp ((w2 :: ws2).map pyLower)
      rw [← ih]
      simp [pyLower, show Char.toLower ' ' = ' ' from by decide]

theorem alook_mem_or_zero (m : List (ℕ × ℕ)) (q : ℕ) :
    alook m q = 0 ∨ ∃ e ∈ m, e.1 = q ∧ alook m q = e.2 := by
  unfold alook
  cases hf : m.find? (fun p => p.1 == q) with
  | none => exact Or.inl rfl
  | some e =>
    refine Or.inr ⟨e, List.mem_of_find?_eq_some hf, ?_, rfl⟩
    have := List.find?_some hf
    simpa using this

theorem bestOk_of_entry (a b : Str) (alo ahi blo bhi i j k : ℕ)
    (he : EntryOk a b alo blo bhi i (j, k)) (hiahi : i < ahi) :
    BestOk a b alo ahi blo bhi ⟨i + 1 - k, j + 1 - k, k⟩ := by
  have hk1 := he.hk1
  have hkj := he.hkj
  have hki := he.hki
  have hjhi := he.hjhi
  constructor
  case hbi => simp only; omega
  case hbj => simp only; omega
  case hbnd => intro _; simp only; omega
  case hch =>
    intro t ht
    have ht' : t < k := ht
    show a.getD (i + 1 - k + t) ' ' = b.getD (j + 1 - k + t) ' '
    have h1 : i + 1 - k + t = i - (k - 1 - t) := by omega
    have h2 : j + 1 - k + t = j - (k - 1 - t) := by omega
    rw [h1, h2]
    exact he.hch (k - 1 - t) (by omega)
  case hz =>
    intro h0
    have h0' : k = 0 := h0
    exact absurd h0' (by omega)

theorem flmInner_ok (a b : Str) (alo ahi blo bhi : ℕ) (i : ℕ) (hialo : alo ≤ i)
    (hiahi : i < ahi) (prev : List (ℕ × ℕ))
    (hprev : ∀ e ∈ prev, 1 ≤ i ∧ EntryOk a b alo blo bhi (i - 1) e) :
    ∀ (js : List ℕ) (acc : List (ℕ × ℕ)) (best : FLBest),
      (∀ j ∈ js, blo ≤ j ∧ j < bhi ∧ b.getD j ' ' = a.getD i ' ') →
      (∀ e ∈ acc, EntryOk a b alo blo bhi i e) →
      BestOk a b alo ahi blo bhi best →
      (∀ e ∈ (flmInner i js prev acc best).1, EntryOk a b alo blo bhi i e) ∧
      BestOk a b alo ahi blo bhi (flmInner i js prev acc best).2 := by
  intro js
  induction js with
  | nil => intro acc best _ hacc hbest; exact ⟨hacc, hbest⟩
  | cons j js ih =>
    intro acc best hjs hacc hbest
    have hj := hjs j (by simp)
    have hentry : ∀ K, K = (if j = 0 then 1 else alook prev (j - 1) + 1) →
        EntryOk a b alo blo bhi i (j, K) := by
      intro K hK
      have hK1 : 1 ≤ K := by
        rw [hK]; split <;> omega
      have hKj : blo + K ≤ j + 1 ∧ alo + K ≤ i + 1 := by
        rw [hK]
        by_cases hj0 : j = 0
        · rw [if_pos hj0]
          constructor
          · have := hj.1; omega
          · omega
        · rw [if_neg hj0]
          rcases alook_mem_or_zero prev (j - 1) with hz | ⟨e, hem, hek, hav⟩
          · rw [hz]
            have := hj.1; constructor <;> omega
          · rw [hav]
            obtain ⟨hi1, hok⟩ := hprev e hem
            have h1 := hok.hkj
            have h2 := hok.hki
            constructor <;> omega
      refine ⟨hK1, hj.1, hj.2.1, hKj.1, hKj.2, ?_⟩
      intro t ht
      match t with
      | 0 => simpa using hj.2.2.symm
      | t' + 1 =>
        have hKne : K = alook prev (j - 1) + 1 := by
          rw [hK]
          rw [if_neg (by rw [hK] at ht; intro hj0; rw [if_pos hj0] at ht; omega)]
        rcases alook_mem_or_zero prev (j - 1) with hz | ⟨e, hem, hek, hav⟩
        · rw [hz] at hKne; omega
        · rw [hav] at hKne
          obtain ⟨hi1, hok⟩ := hprev e hem
          have h1 : i - (t' + 1) = (i - 1) - t' := by omega
          have hj1 : 1 ≤ j := by
            rcases Nat.eq_zero_or_pos j with hj0 | hj0
            · rw [hK, if_pos hj0] at ht; omega
            · exact hj0
          have h2 : j - (t' + 1) = e.1 - t' := by omega
          simp only
          rw [h1, h2]
          exact hok.hch t' (by omega)
    have hbest' : ∀ K, K = (if j = 0 then 1 else alook prev (j - 1) + 1) →
        BestOk a b alo ahi blo bhi
          (if best.sz < K then (⟨i + 1 - K, j + 1 - K, K⟩ : FLBest) else best) := by
      intro K hK
      by_cases hlt : best.sz < K
      · rw [if_pos hlt]
        exact bestOk_of_entry a b alo ahi blo bhi i j K (hentry K hK) hiahi
      · rw [if_neg hlt]
        exact hbest
    have hstep := ih ((j, if j = 0 then 1 else alook prev (j - 1) + 1) :: acc)
      (if best.sz < (if j = 0 then 1 else alook prev (j - 1) + 1) then
        (⟨i + 1 - (if j = 0 then 1 else alook prev (j - 1) + 1),
          j + 1 - (if j = 0 then 1 else alook prev (j - 1) + 1),
          if j = 0 then 1 else alook prev (j - 1) + 1⟩ : FLBest) else best)
      (fun q hq => hjs q (by simp [hq]))
      (fun e he => by
        rcases List.mem_cons.1 he with rfl | he'
        · exact hentry _ rfl
        · exact hacc e he')
      (hbest' _ rfl)
    exact hstep

theorem b2j_mem_imp (b : Str) (c : Char) (j : ℕ) (h : j ∈ b2j b c) :
    b.getD j ' ' = c := by
  unfold b2j at h
  split at h
  · simp at h
  · rw [List.mem_filter] at h
    simpa using h.2

theorem flmOuter_ok (a b : Str) (alo ahi blo bhi : ℕ) :
    ∀ (n i₀ : ℕ), alo ≤ i₀ → i₀ + n ≤ ahi →
    ∀ (prev : List (ℕ × ℕ)) (best : FLBest),
      (∀ e ∈ prev, 1 ≤ i₀ ∧ EntryOk a b alo blo bhi (i₀ - 1) e) →
      BestOk a b alo ahi blo bhi best →
      BestOk a b alo ahi blo bhi (flmOuter a b blo bhi (List.range' i₀ n) prev best) := by
  intro n
  induction n with
  | zero =>
    intro i₀ _ _ prev best _ hbest
    simpa only [List.range', flmOuter] using hbest
  | succ n ih =>
    intro i₀ h1 h2 prev best hprev hbest
    rw [List.range'_succ]
    simp only [flmOuter]
    have hrow := flmInner_ok a b alo ahi blo bhi i₀ h1 (by omega) prev hprev
      ((b2j b (a.getD i₀ ' ')).filter fun j => decide (blo ≤ j) && decide (j < bhi))
      [] best
      (fun j hj => by
        rw [List.mem_filter] at hj
        have hb := b2j_mem_imp b (a.getD i₀ ' ') j hj.1
        have hcond := hj.2
        simp only [Bool.and_eq_true, decide_eq_true_eq] at hcond
        exact ⟨hcond.1, hcond.2, hb⟩)
      (fun e he => absurd he (List.not_mem_nil e))
      hbest
    exact ih (i₀ + 1) (by omega) (by omega) _ _
      (fun e he => ⟨by omega, by simpa using hrow.1 e he⟩)
      hrow.2

theorem extBack_ok (a b : Str) (alo ahi blo bhi : ℕ) :
    ∀ (fuel bi bj sz : ℕ),
      FLOk a b alo ahi blo bhi (bi, bj, sz) →
      FLOk a b alo ahi blo bhi (extBack a b alo blo fuel bi bj sz) := by
  intro fuel
  induction fuel with
  | zero => intro bi bj sz h; exact h
  | succ fuel ih =>
    intro bi bj sz h
    by_cases hg : alo < bi ∧ blo < bj ∧ a.getD (bi - 1) ' ' = b.getD (bj - 1) ' '
    · rw [show extBack a b alo blo (fuel + 1) bi bj sz =
          extBack a b alo blo fuel (bi - 1) (bj - 1) (sz + 1) from by
        simp only [extBack]; rw [if_pos hg]]
      apply ih
      have hbnd : bi + sz ≤ ahi ∧ bj + sz ≤ bhi := by
        by_cases hsz : sz = 0
        · have := h.hz hsz
          exact absurd this.1 (by omega)
        · exact h.hbnd hsz
      refine ⟨show alo ≤ bi - 1 from by omega, show blo ≤ bj - 1 from by omega, ?_, ?_, ?_⟩
      · intro _
        show bi - 1 + (sz + 1) ≤ ahi ∧ bj - 1 + (sz + 1) ≤ bhi
        omega
      · intro t ht
        have ht' : t < sz + 1 := ht
        show a.getD (bi - 1 + t) ' ' = b.getD (bj - 1 + t) ' '
        match t with
        | 0 => simpa using hg.2.2
        | t' + 1 =>
          have hai : bi - 1 + (t' + 1) = bi + t' := by omega
          have haj : bj - 1 + (t' + 1) = bj + t' := by omega
          rw [hai, haj]
          exact h.hch t' (show t' < sz from by omega)
      · intro h0
        have h0' : sz + 1 = 0 := h0
        exact absurd h0' (by omega)
    · rw [show extBack a b alo blo (fuel + 1) bi bj sz = (bi, bj, sz) from by
        simp only [extBack]; rw [if_neg hg]]
      exact h

theorem extFwd_ok (a b : Str) (alo ahi blo bhi bi bj : ℕ) :
    ∀ (fuel sz : ℕ),
      FLOk a b alo ahi blo bhi (bi, bj, sz) →
      FLOk a b alo ahi blo bhi (bi, bj, extFwd a b ahi bhi bi bj fuel sz) := by
  intro fuel
  induction fuel with
  | zero => intro sz h; exact h
  | succ fuel ih =>
    intro sz h
    by_cases hg : bi + sz < ahi ∧ bj + sz < bhi ∧ a.getD (bi + sz) ' ' = b.getD (bj + sz) ' '
    · rw [show extFwd a b ahi bhi bi bj (fuel + 1) sz =
          extFwd a b ahi bhi bi bj fuel (sz + 1) from by
        simp only [extFwd]; rw [if_pos hg]]
      apply ih
      refine ⟨h.hio, h.hjo, ?_, ?_, ?_⟩
      · intro _
        show bi + (sz + 1) ≤ ahi ∧ bj + (sz + 1) ≤ bhi
        omega
      · intro t ht
        have ht' : t < sz + 1 := ht
        show a.getD (bi + t) ' ' = b.getD (bj + t) ' '
        rcases Nat.lt_succ_iff_lt_or_eq.1 ht' with hlt | heq
        · exact h.hch t hlt
        · rw [heq]; exact hg.2.2
      · intro h0
        have h0' : sz + 1 = 0 := h0
        exact absurd h0' (by omega)
    · rw [show extFwd a b ahi bhi bi bj (fuel + 1) sz = sz from by
        simp only [extFwd]; rw [if_neg hg]]
      exact h

theorem flm_spec (a b : Str) (alo ahi blo bhi : ℕ) :
    FLOk a b alo ahi blo bhi (find_longest_match a b alo ahi blo bhi) := by
  have hinit : BestOk a b alo ahi blo bhi ⟨alo, blo, 0⟩ := by
    refine ⟨le_refl _, le_refl _, fun h => absurd rfl h,
      fun t ht => absurd ht (Nat.not_lt_zero t), fun _ => ⟨rfl, rfl⟩⟩
  have hbest : BestOk a b alo ahi blo bhi
      (flmOuter a b blo bhi (List.range' alo (ahi - alo)) [] ⟨alo, blo, 0⟩) := by
    rcases Nat.le_total alo ahi with hle | hle
    · exact flmOuter_ok a b alo ahi blo bhi (ahi - alo) alo (le_refl _) (by omega) [] _
        (fun e he => absurd he (List.not_mem_nil e)) hinit
    · rw [show ahi - alo = 0 from by omega]
      simpa only [List.range', flmOuter] using hinit
  simp only [find_longest_match]
  set B := flmOuter a b blo bhi (List.range' alo (ahi - alo)) [] (⟨alo, blo, 0⟩ : FLBest)
    with hB
  have h1' : FLOk a b alo ahi blo bhi (B.bi, B.bj, B.sz) :=
    ⟨hbest.hbi, hbest.hbj, hbest.hbnd, hbest.hch, hbest.hz⟩
  have h2' := extBack_ok a b alo ahi blo bhi B.bi B.bi B.bj B.sz h1'
  exact extFwd_ok a b alo ahi blo bhi _ _ ahi _ h2'

theorem char_toNat_ofNat_valid (n : ℕ) (h : n < 0xd800) : (Char.ofNat n).toNat = n := by
  have hv : n.isValidChar := Or.inl h
  unfold Char.ofNat
  rw [dif_pos hv]
  unfold Char.ofNatAux Char.toNat
  simp [UInt32.toNat]

theorem toLower_eq_space (c : Char) (h : c.toLower = ' ') : c = ' ' := by
  unfold Char.toLower at h
  by_cases hc : c.toNat ≥ 65 ∧ c.toNat ≤ 90
  · rw [if_pos hc] at h
    exfalso
    have h32 : (Char.ofNat (c.toNat + 32)).toNat = 32 := by rw [h]; rfl
    rw [char_toNat_ofNat_valid (c.toNat + 32) (by omega)] at h32
    omega
  · rw [if_neg hc] at h
    exact h

theorem slice_count_split (l : List Char) (x y z : ℕ) (hxy : x ≤ y) (hyz : y ≤ z) :
    ((l.drop x).take (z - x)).count ' ' =
      ((l.drop x).take (y - x)).count ' ' + ((l.drop y).take (z - y)).count ' ' := by
  rw [show z - x = (y - x) + (z - y) from by omega, List.take_add, List.count_append,
    List.drop_drop, show x + (y - x) = y from by omega]

theorem mem_slice_imp (a : List Char) (p n : ℕ) (c : Char)
    (h : c ∈ (a.drop p).take n) :
    ∃ t, t < n ∧ p + t < a.length ∧ a.getD (p + t) ' ' = c := by
  obtain ⟨i, hi⟩ := List.mem_iff_getElem?.1 h
  have hlen := (List.getElem?_eq_some.1 hi).1
  rw [List.length_take, List.length_drop] at hlen
  have hin : i < n := by omega
  rw [List.getElem?_take, if_pos hin, List.getElem?_drop] at hi
  refine ⟨i, hin, (List.getElem?_eq_some.1 hi).1, ?_⟩
  rw [List.getD_eq_getElem?_getD, hi]
  rfl

theorem slice_count_full (a : List Char) (p n : ℕ) (hn : p + n ≤ a.length)
    (hsp : ∀ t, t < n → a.getD (p + t) ' ' = ' ') :
    ((a.drop p).take n).count ' ' = n := by
  have hl : ((a.drop p).take n).length = n := by
    rw [List.length_take, List.length_drop]; omega
  have hall : ∀ c ∈ (a.drop p).take n, ' ' = c := by
    intro c hc
    obtain ⟨t, htn, htl, hteq⟩ := mem_slice_imp a p n c hc
    rw [← hteq]
    exact (hsp t htn).symm
  rw [List.count_eq_length.2 hall]
  exact hl

theorem matchTotalF_le (a b : List Char) (hcomm : ∀ c, c ∈ a → c ∈ b → c = ' ') :
    ∀ (fuel alo ahi blo bhi : ℕ), ahi ≤ a.length → bhi ≤ b.length →
      matchTotalF a b fuel alo ahi blo bhi ≤ ((a.drop alo).take (ahi - alo)).count ' ' := by
  intro fuel
  induction fuel with
  | zero => intro alo ahi blo bhi _ _; exact Nat.zero_le _
  | succ fuel ih =>
    intro alo ahi blo bhi ha hb
    simp only [matchTotalF]
    set r := find_longest_match a b alo ahi blo bhi with hr
    have hspec := flm_spec a b alo ahi blo bhi
    rw [← hr] at hspec
    by_cases h0 : r.2.2 = 0
    · rw [if_pos h0]; exact Nat.zero_le _
    · rw [if_neg h0]
      have hbnd := hspec.hbnd h0
      have hio := hspec.hio
      have hjo := hspec.hjo
      have hsp : ∀ t, t < r.2.2 → a.getD (r.1 + t) ' ' = ' ' := by
        intro t ht
        have hlt : r.1 + t < a.length := by omega
        have hltb : r.2.1 + t < b.length := by omega
        have hma : a.getD (r.1 + t) ' ' ∈ a := by
          rw [List.getD_eq_getElem a ' ' hlt]
          exact List.getElem_mem hlt
        have hmb : a.getD (r.1 + t) ' ' ∈ b := by
          rw [hspec.hch t ht, List.getD_eq_getElem b ' ' hltb]
          exact List.getElem_mem hltb
        exact hcomm _ hma hmb
      have hsplit1 : ((a.drop alo).take (ahi - alo)).count ' ' =
          ((a.drop alo).take (r.1 - alo)).count ' ' +
          ((a.drop r.1).take (ahi - r.1)).count ' ' :=
        slice_count_split a alo r.1 ahi hio (by omega)
      have hsplit2 : ((a.drop r.1).take (ahi - r.1)).count ' ' =
          ((a.drop r.1).take (r.1 + r.2.2 - r.1)).count ' ' +
          ((a.drop (r.1 + r.2.2)).take (ahi - (r.1 + r.2.2))).count ' ' :=
        slice_count_split a r.1 (r.1 + r.2.2) ahi (by omega) (by omega)
      have hmid : ((a.drop r.1).take (r.1 + r.2.2 - r.1)).count ' ' = r.2.2 := by
        rw [show r.1 + r.2.2 - r.1 = r.2.2 from by omega]
        exact slice_count_full a r.1 r.2.2 (by omega) hsp
      have hleft : (if alo < r.1 ∧ blo < r.2.1 then
            matchTotalF a b fuel alo r.1 blo r.2.1 else 0) ≤
          ((a.drop alo).take (r.1 - alo)).count ' ' := by
        split
        · exact ih alo r.1 blo r.2.1 (by omega) (by omega)
        · exact Nat.zero_le _
      have hright : (if r.1 + r.2.2 < ahi ∧ r.2.1 + r.2.2 < bhi then
            matchTotalF a b fuel (r.1 + r.2.2) ahi (r.2.1 + r.2.2) bhi else 0) ≤
          ((a.drop (r.1 + r.2.2)).take (ahi - (r.1 + r.2.2))).count ' ' := by
        split
        · exact ih (r.1 + r.2.2) ahi (r.2.1 + r.2.2) bhi ha hb
        · exact Nat.zero_le _
      omega

theorem matchTotal_le (a b : List Char) (hcomm : ∀ c, c ∈ a → c ∈ b → c = ' ') :
    matchTotal a b ≤ a.count ' ' := by
  have h := matchTotalF_le a b hcomm (a.length + b.length + 1) 0 a.length 0 b.length
    (le_refl _) (le_refl _)
  simpa [matchTotal] using h

theorem ratioOf_le_of_sparse (A B : Str) (g : ℕ) (hg : 1 ≤ g)
    (hcomm : ∀ c, c ∈ A → c ∈ B → c = ' ')
    (hcount : A.count ' ' = g - 1)
    (hLA : 2 * g ≤ A.length + 1) (hLB : 2 * g ≤ B.length + 1) :
    ratioOf A B ≤ 3 / 5 := by
  have hM := matchTotal_le A B hcomm
  rw [hcount] at hM
  have hApos : 0 < A.length := by omega
  have hpos : (0:ℚ) < (A.length : ℚ) + (B.length : ℚ) := by
    have h1 : (1:ℚ) ≤ (A.length : ℚ) := by exact_mod_cast hApos
    have h0 : (0:ℚ) ≤ (B.length : ℚ) := by positivity
    linarith
  rw [ratioOf, if_neg (show ¬(A.length + B.length = 0) from by omega), div_le_iff₀ hpos]
  have hMq : (matchTotal A B : ℚ) ≤ (g : ℚ) - 1 := by
    have h2 : (matchTotal A B : ℚ) ≤ ((g - 1 : ℕ) : ℚ) := by exact_mod_cast hM
    rw [Nat.cast_sub hg] at h2
    simpa using h2
  have hLAq : 2 * (g:ℚ) ≤ (A.length:ℚ) + 1 := by exact_mod_cast hLA
  have hLBq : 2 * (g:ℚ) ≤ (B.length:ℚ) + 1 := by exact_mod_cast hLB
  linarith

theorem is_repetitive_eq (threshold : ℚ) (text : Str) (ws : List Str)
    (hw : pyWords text = ws)
    (h100 : ¬ text.length < 100) (h20 : ¬ ws.length < 20) (h10 : ¬ ws.length / 3 < 10) :
    is_repetitive threshold text =
      (decide (threshold < calculate_similarity (joinSp (ws.take (ws.length / 3)))
        (joinSp ((ws.drop (ws.length / 3)).take (ws.length / 3)))) ||
       decide (threshold < calculate_similarity
        (joinSp ((ws.drop (ws.length / 3)).take (ws.length / 3)))
        (joinSp ((ws.drop (2 * (ws.length / 3))).take (ws.length / 3))))) := by
  unfold is_repetitive
  rw [if_neg h100]
  show (if (pyWords text).length < 20 then false
    else
      if (pyWords text).length / 3 < 10 then false
      else
        decide (threshold < calculate_similarity
          (joinSp ((pyWords text).take ((pyWords text).length / 3)))
          (joinSp (((pyWords text).drop ((pyWords text).length / 3)).take
            ((pyWords text).length / 3)))) ||
        decide (threshold < calculate_similarity
          (joinSp (((pyWords text).drop ((pyWords text).length / 3)).take
            ((pyWords text).length / 3)))
          (joinSp (((pyWords text).drop (2 * ((pyWords text).length / 3))).take
            ((pyWords text).length / 3))))) = _
  rw [hw, if_neg h20, if_neg h10]

theorem flmInner_acc_mono (i : ℕ) :
    ∀ (js : List ℕ) (prev acc : List (ℕ × ℕ)) (best : FLBest) (e : ℕ × ℕ),
      e ∈ acc → e ∈ (flmInner i js prev acc best).1 := by
  intro js
  induction js with
  | nil => intro prev acc best e he; exact he
  | cons j js ih =>
    intro prev acc best e he
    simp only [flmInner]
    exact ih prev _ _ e (by simp [he])

theorem flmInner_mem (i : ℕ) :
    ∀ (js : List ℕ) (prev acc : List (ℕ × ℕ)) (best : FLBest) (j : ℕ),
      j ∈ js →
      (j, if j = 0 then 1 else alook prev (j - 1) + 1) ∈ (flmInner i js prev acc best).1 := by
  intro js
  induction js with
  | nil => intro prev acc best j hj; exact absurd hj (List.not_mem_nil j)
  | cons j' js ih =>
    intro prev acc best j hj
    simp only [flmInner]
    rcases List.mem_cons.1 hj with rfl | hmem
    · exact flmInner_acc_mono i js prev _ _ _ (by simp)
    · exact ih prev _ _ j hmem

theorem flmInner_sz_mono (i : ℕ) :
    ∀ (js : List ℕ) (prev acc : List (ℕ × ℕ)) (best : FLBest),
      best.sz ≤ (flmInner i js prev acc best).2.sz := by
  intro js
  induction js with
  | nil => intro prev acc best; exact le_refl _
  | cons j js ih =>
    intro prev acc best
    simp only [flmInner]
    by_cases hlt : best.sz < (if j = 0 then 1 else alook prev (j - 1) + 1)
    · rw [if_pos hlt]
      refine le_trans (le_of_lt hlt) ?_
      exact ih prev ((j, if j = 0 then 1 else alook prev (j - 1) + 1) :: acc)
        ⟨i + 1 - (if j = 0 then 1 else alook prev (j - 1) + 1),
         j + 1 - (if j = 0 then 1 else alook prev (j - 1) + 1),
         if j = 0 then 1 else alook prev (j - 1) + 1⟩
    · rw [if_neg hlt]
      exact ih prev _ _

theorem flmInner_sz_ge (i : ℕ) :
    ∀ (js : List ℕ) (prev acc : List (ℕ × ℕ)) (best : FLBest) (j : ℕ),
      j ∈ js →
      (if j = 0 then 1 else alook prev (j - 1) + 1) ≤ (flmInner i js prev acc best).2.sz := by
  intro js
  induction js with
  | nil => intro prev acc best j hj; exact absurd hj (List.not_mem_nil j)
  | cons j' js ih =>
    intro prev acc best j hj
    simp only [flmInner]
    rcases List.mem_cons.1 hj with rfl | hmem
    · refine le_trans ?_ (flmInner_sz_mono i js prev _ _)
      by_cases hlt : best.sz < (if j = 0 then 1 else alook prev (j - 1) + 1)
      · rw [if_pos hlt]
      · rw [if_neg hlt]
        omega
    · exact ih prev _ _ j hmem

theorem flmInner_keys (i : ℕ) :
    ∀ (js : List ℕ) (prev acc : List (ℕ × ℕ)) (best : FLBest),
      (flmInner i js prev acc best).1.map Prod.fst = js.reverse ++ acc.map Prod.fst := by
  intro js
  induction js with
  | nil => intro prev acc best; simp [flmInner]
  | cons j js ih =>
    intro prev acc best
    simp only [flmInner]
    rw [ih prev _ _]
    simp

theorem alook_eq_of_mem_nodup (m : List (ℕ × ℕ)) (q v : ℕ)
    (hnd : (m.map Prod.fst).Nodup) (hmem : (q, v) ∈ m) : alook m q = v := by
  unfold alook
  cases hf : m.find? (fun p => p.1 == q) with
  | none =>
    exfalso
    have := List.find?_eq_none.1 hf (q, v) hmem
    simp at this
  | some e =>
    have hmem' := List.mem_of_find?_eq_some hf
    have hkey : e.1 = q := by simpa using List.find?_some hf
    have heq : e = (q, v) :=
      List.inj_on_of_nodup_map hnd hmem' hmem (by simp [hkey])
    rw [heq]
    rfl

theorem b2j_nodup (b : Str) (c : Char) : (b2j b c).Nodup := by
  unfold b2j
  split
  · exact List.nodup_nil
  · exact (List.nodup_range _).filter _

theorem b2j_self_mem (s : Str) (h200 : s.length < 200) (i : ℕ) (hi : i < s.length) :
    i ∈ b2j s (s.getD i ' ') := by
  have hp : bPopular s (s.getD i ' ') = false := by
    unfold bPopular
    rw [decide_eq_false (show ¬(200 ≤ s.length) from by omega)]
    rfl
  unfold b2j
  rw [if_neg (show ¬(bPopular s (s.getD i ' ') = true) from by rw [hp]; simp)]
  simp [List.mem_filter, List.mem_range, hi]

theorem extFwd_stop (a b : Str) (ahi bhi bi bj fuel sz : ℕ)
    (h : ¬(bi + sz < ahi ∧ bj + sz < bhi ∧ a.getD (bi + sz) ' ' = b.getD (bj + sz) ' ')) :
    extFwd a b ahi bhi bi bj fuel sz = sz := by
  cases fuel with
  | zero => rfl
  | succ m => simp only [extFwd]; rw [if_neg h]

theorem flmOuter_self_ge (s : Str) (h200 : s.length < 200) :
    ∀ (n i₀ : ℕ) (prev : List (ℕ × ℕ)) (best : FLBest),
      i₀ + n = s.length → 0 < n →
      (prev.map Prod.fst).Nodup →
      (1 ≤ i₀ → (i₀ - 1, i₀) ∈ prev) →
      s.length ≤ (flmOuter s s 0 s.length (List.range' i₀ n) prev best).sz := by
  intro n
  induction n with
  | zero => intro i₀ prev best _ h0 _ _; exact absurd h0 (by omega)
  | succ n ih =>
    intro i₀ prev best hsum hpos hnd hdiag
    rw [List.range'_succ]
    simp only [flmOuter]
    have hi₀ : i₀ < s.length := by omega
    have hjmem : i₀ ∈ (b2j s (s.getD i₀ ' ')).filter
        (fun j => decide (0 ≤ j) && decide (j < s.length)) := by
      rw [List.mem_filter]
      exact ⟨b2j_self_mem s h200 i₀ hi₀, by simp [hi₀]⟩
    have hkval : (if i₀ = 0 then 1 else alook prev (i₀ - 1) + 1) = i₀ + 1 := by
      by_cases h0 : i₀ = 0
      · rw [if_pos h0, h0]
      · rw [if_neg h0, alook_eq_of_mem_nodup prev (i₀ - 1) i₀ hnd (hdiag (by omega))]
    cases n with
    | zero =>
      simp only [List.range', flmOuter]
      have hb := flmInner_sz_ge i₀ _ prev [] best i₀ hjmem
      rw [hkval] at hb
      omega
    | succ m =>
      refine ih (i₀ + 1) _ _ (by omega) (by omega) ?_ ?_
      · rw [flmInner_keys]
        simp only [List.map_nil, List.append_nil]
        exact List.nodup_reverse.2 ((b2j_nodup s (s.getD i₀ ' ')).filter _)
      · intro _
        have hm := flmInner_mem i₀ _ prev [] best i₀ hjmem
        rw [hkval] at hm
        simpa using hm

theorem flm_self (s : Str) (h1 : 1 ≤ s.length) (h2 : s.length < 200) :
    find_longest_match s s 0 s.length 0 s.length = (0, 0, s.length) := by
  have hbestOk : BestOk s s 0 s.length 0 s.length
      (flmOuter s s 0 s.length (List.range' 0 (s.length - 0)) [] ⟨0, 0, 0⟩) := by
    refine flmOuter_ok s s 0 s.length 0 s.length (s.length - 0) 0 (le_refl _) (by omega) [] _
      (fun e he => absurd he (List.not_mem_nil e)) ?_
    exact ⟨le_refl _, le_refl _, fun h => absurd rfl h,
      fun t ht => absurd ht (Nat.not_lt_zero t), fun _ => ⟨rfl, rfl⟩⟩
  have hge : s.length ≤
      (flmOuter s s 0 s.length (List.range' 0 (s.length - 0)) [] (⟨0, 0, 0⟩ : FLBest)).sz := by
    rw [show s.length - 0 = s.length from rfl]
    exact flmOuter_self_ge s h2 s.length 0 [] ⟨0, 0, 0⟩ (by omega) (by omega) (by simp)
      (fun h => absurd h (by omega))
  simp only [find_longest_match]
  set B := flmOuter s s 0 s.length (List.range' 0 (s.length - 0)) [] (⟨0, 0, 0⟩ : FLBest)
    with hB
  have hne : B.sz ≠ 0 := by omega
  have hbnd := hbestOk.hbnd hne
  have hsz : B.sz = s.length := by omega
  have hbi : B.bi = 0 := by omega
  have hbj : B.bj = 0 := by omega
  rw [hbi, hbj, hsz]
  have hfwd : extFwd s s s.length s.length 0 0 s.length s.length = s.length :=
    extFwd_stop s s s.length s.length 0 0 s.length s.length (fun h => absurd h.1 (by omega))
  show (0, 0, extFwd s s s.length s.length 0 0 s.length s.length) = (0, 0, s.length)
  rw [hfwd]

theorem matchTotal_self (s : Str) (h1 : 1 ≤ s.length) (h2 : s.length < 200) :
    matchTotal s s = s.length := by
  unfold matchTotal
  simp only [matchTotalF]
  rw [flm_self s h1 h2]
  dsimp only
  rw [if_neg (show ¬(s.length = 0) from by omega),
    if_neg (show ¬(0 < 0 ∧ 0 < 0) from by omega),
    if_neg (show ¬(0 + s.length < s.length ∧ 0 + s.length < s.length) from by omega)]
  omega

theorem ratioOf_self (s : Str) (h1 : 1 ≤ s.length) (h2 : s.length < 200) :
    ratioOf s s = 1 := by
  rw [ratioOf, if_neg (show ¬(s.length + s.length = 0) from by omega),
    matchTotal_self s h1 h2]
  have hq : (1:ℚ) ≤ (s.length : ℚ) := by exact_mod_cast h1
  rw [div_eq_one_iff_eq (by linarith)]
  ring

theorem is_repetitive_guard2 (threshold : ℚ) (text : Str)
    (h100 : ¬ text.length < 100) (h20 : (pyWords text).length < 20) :
    is_repetitive threshold text = false := by
  unfold is_repetitive
  rw [if_neg h100]
  dsimp only
  rw [if_pos h20]

theorem is_repetitive_guard3 (threshold : ℚ) (text : Str)
    (h100 : ¬ text.length < 100) (h20 : ¬ (pyWords text).length < 20)
    (h10 : (pyWords text).length / 3 < 10) :
    is_repetitive threshold text = false := by
  unfold is_repetitive
  rw [if_neg h100]
  dsimp only
  rw [if_neg h20, if_pos h10]

/-! ## C6: repetition detector on identical / distinct word groups -/

/-- C6, counterexample.  The claim states that a text formed of three
entirely distinct word groups is never classified repetitive at the
default threshold 0.6.  The three groups below are pairwise disjoint as
word sets (ten words each, text length 119, 30 words), yet re-spacing the
same characters makes `SequenceMatcher` ratios high (34/39 > 0.6 for the
adjacent pairs), so `is_repetitive` returns `true`. -/
theorem C6_repetition_cex :
    cexG1.length = 10 ∧ cexG2.length = 10 ∧ cexG3.length = 10 ∧
    (∀ w ∈ cexG1, ¬ w ∈ cexG2 ∧ ¬ w ∈ cexG3) ∧
    (∀ w ∈ cexG2, ¬ w ∈ cexG3) ∧
    100 ≤ (joinSp (cexG1 ++ cexG2 ++ cexG3)).length ∧
    is_repetitive (3 / 5) (joinSp (cexG1 ++ cexG2 ++ cexG3)) = true := by
  refine ⟨by decide, by decide, by decide, by decide, by decide, by decide, ?_⟩
  rw [is_repetitive_eq (3 / 5) (joinSp (cexG1 ++ cexG2 ++ cexG3)) (cexG1 ++ cexG2 ++ cexG3)
    (by decide) (by decide) (by decide) (by decide)]
  rw [show (cexG1 ++ cexG2 ++ cexG3).length / 3 = 10 from by decide]
  rw [show (cexG1 ++ cexG2 ++ cexG3).take 10 = cexG1 from by decide,
    show ((cexG1 ++ cexG2 ++ cexG3).drop 10).take 10 = cexG2 from by decide,
    show ((cexG1 ++ cexG2 ++ cexG3).drop (2 * 10)).take 10 = cexG3 from by decide]
  have hsim : calculate_similarity (joinSp cexG1) (joinSp cexG2) = 34 / 39 := by
    unfold calculate_similarity ratioOf
    rw [show matchTotal (pyLower (joinSp cexG1)) (pyLower (joinSp cexG2)) = 34 from by decide,
      show (pyLower (joinSp cexG1)).length = 39 from by decide,
      show (pyLower (joinSp cexG2)).length = 39 from by decide]
    rw [if_neg (by omega)]
    norm_num
  rw [hsim, decide_eq_true (show (3:ℚ) / 5 < 34 / 39 from by norm_num), Bool.true_or]

/-- C6, corrected.  Both directions of the claim, the first with the
minimum-size and autojunk provisos it needs, the second in
character-disjoint form (the counterexample shows that word-disjointness
is not enough).  (1) Every text of three identical word groups — at least
10 words per group, total length at least 100, per-group length under 200
(past which difflib autojunk can discard popular characters) — is
classified repetitive at threshold 0.6.  (2) Every text of three
equal-sized word groups whose lowercased chunks share no character other
than the space is classified not repetitive at threshold 0.6. -/
theorem C6_repetition :
    (∀ ws : List Str,
      (∀ w ∈ ws, w ≠ [] ∧ ∀ c ∈ w, ¬ c.isWhitespace) →
      10 ≤ ws.length →
      100 ≤ (joinSp (ws ++ ws ++ ws)).length →
      (joinSp ws).length < 200 →
      is_repetitive (3 / 5) (joinSp (ws ++ ws ++ ws)) = true) ∧
    (∀ ws1 ws2 ws3 : List Str,
      (∀ w ∈ ws1 ++ ws2 ++ ws3, w ≠ [] ∧ ∀ c ∈ w, ¬ c.isWhitespace) →
      ws2.length = ws1.length → ws3.length = ws1.length →
      (∀ c ∈ pyLower (joinSp ws1), c ∈ pyLower (joinSp ws2) → c = ' ') →
      (∀ c ∈ pyLower (joinSp ws2), c ∈ pyLower (joinSp ws3) → c = ' ') →
      is_repetitive (3 / 5) (joinSp (ws1 ++ ws2 ++ ws3)) = false) := by
  have hcnt : ∀ ws : List Str, (∀ w ∈ ws, w ≠ [] ∧ ∀ c ∈ w, ¬ c.isWhitespace) →
      (pyLower (joinSp ws)).count ' ' = ws.length - 1 ∧
      2 * ws.length ≤ (pyLower (joinSp ws)).length + 1 := by
    intro ws hv
    have hsp : ∀ w ∈ ws.map pyLower, ∀ c ∈ w, c ≠ ' ' := by
      intro w hw c hc
      obtain ⟨w0, hw0, rfl⟩ := List.mem_map.1 hw
      simp only [pyLower] at hc
      obtain ⟨c0, hc0, rfl⟩ := List.mem_map.1 hc
      intro hsp0
      have hc0s := toLower_eq_space c0 hsp0
      have hnw := (hv w0 hw0).2 c0 hc0
      rw [hc0s] at hnw
      exact hnw (by decide)
    constructor
    · rw [pyLower_joinSp, joinSp_count_space (ws.map pyLower) hsp, List.length_map]
    · have := joinSp_length ws (fun w hw => (hv w hw).1)
      simp only [pyLower, List.length_map]
      omega
  constructor
  · intro ws hval h10 h100 h200
    have hvalall : ∀ w ∈ ws ++ ws ++ ws, w ≠ [] ∧ ∀ c ∈ w, ¬ c.isWhitespace := by
      intro w hw
      rcases List.mem_append.1 hw with h | h
      · rcases List.mem_append.1 h with h' | h'
        · exact hval w h'
        · exact hval w h'
      · exact hval w h
    have hwords : pyWords (joinSp (ws ++ ws ++ ws)) = ws ++ ws ++ ws :=
      pyWords_joinSp _ hvalall
    have hlen3 : (ws ++ ws ++ ws).length = 3 * ws.length := by
      simp only [List.length_append]
      ring
    have hcs : (ws ++ ws ++ ws).length / 3 = ws.length := by omega
    rw [is_repetitive_eq (3 / 5) (joinSp (ws ++ ws ++ ws)) (ws ++ ws ++ ws) hwords
      (by omega) (by omega) (by omega)]
    rw [hcs]
    have hc1 : (ws ++ ws ++ ws).take ws.length = ws := by
      rw [List.append_assoc]
      exact List.take_left ws (ws ++ ws)
    have hc2 : ((ws ++ ws ++ ws).drop ws.length).take ws.length = ws := by
      rw [List.append_assoc, List.drop_left]
      exact List.take_left ws ws
    have hc3 : ((ws ++ ws ++ ws).drop (2 * ws.length)).take ws.length = ws := by
      have hd : (ws ++ ws ++ ws).drop (2 * ws.length) = ws := by
        rw [show 2 * ws.length = (ws ++ ws).length from by
          rw [List.length_append]; ring]
        exact List.drop_left (ws ++ ws) ws
      rw [hd]
      exact List.take_length ws
    rw [hc1, hc2, hc3]
    have h1len : 1 ≤ (pyLower (joinSp ws)).length := by
      have := joinSp_length ws (fun w hw => (hval w hw).1)
      simp only [pyLower, List.length_map]
      omega
    have h2len : (pyLower (joinSp ws)).length < 200 := by
      simp only [pyLower, List.length_map]
      exact h200
    have hsim : calculate_similarity (joinSp ws) (joinSp ws) = 1 := by
      unfold calculate_similarity
      exact ratioOf_self _ h1len h2len
    rw [hsim, decide_eq_true (show (3:ℚ) / 5 < 1 from by norm_num), Bool.true_or]
  · intro ws1 ws2 ws3 hval hl2 hl3 hc12 hc23
    have hwords : pyWords (joinSp (ws1 ++ ws2 ++ ws3)) = ws1 ++ ws2 ++ ws3 :=
      pyWords_joinSp _ hval
    by_cases h100 : (joinSp (ws1 ++ ws2 ++ ws3)).length < 100
    · unfold is_repetitive
      rw [if_pos h100]
    · by_cases h20 : (ws1 ++ ws2 ++ ws3).length < 20
      · exact is_repetitive_guard2 _ _ h100 (by rw [hwords]; exact h20)
      · by_cases h10 : (ws1 ++ ws2 ++ ws3).length / 3 < 10
        · exact is_repetitive_guard3 _ _ h100 (by rw [hwords]; exact h20)
            (by rw [hwords]; exact h10)
        · rw [is_repetitive_eq (3 / 5) (joinSp (ws1 ++ ws2 ++ ws3)) (ws1 ++ ws2 ++ ws3)
            hwords h100 h20 h10]
          have hlen3 : (ws1 ++ ws2 ++ ws3).length = 3 * ws1.length := by
            simp only [List.length_append, hl2, hl3]
            ring
          have hcs : (ws1 ++ ws2 ++ ws3).length / 3 = ws1.length := by omega
          have hg1 : 1 ≤ ws1.length := by omega
          rw [hcs]
          have hc1 : (ws1 ++ ws2 ++ ws3).take ws1.length = ws1 := by
            rw [List.append_assoc]
            exact List.take_left ws1 (ws2 ++ ws3)
          have hc2 : ((ws1 ++ ws2 ++ ws3).drop ws1.length).take ws1.length = ws2 := by
            rw [List.append_assoc, List.drop_left, ← hl2]
            exact List.take_left ws2 ws3
          have hc3 : ((ws1 ++ ws2 ++ ws3).drop (2 * ws1.length)).take ws1.length = ws3 := by
            have hd : (ws1 ++ ws2 ++ ws3).drop (2 * ws1.length) = ws3 := by
              rw [show 2 * ws1.length = (ws1 ++ ws2).length from by
                rw [List.length_append, hl2]; ring]
              exact List.drop_left (ws1 ++ ws2) ws3
            rw [hd, ← hl3]
            exact List.take_length ws3
          rw [hc1, hc2, hc3]
          have hv1 : ∀ w ∈ ws1, w ≠ [] ∧ ∀ c ∈ w, ¬ c.isWhitespace := by
            intro w hw
            exact hval w (by simp [hw])
          have hv2 : ∀ w ∈ ws2, w ≠ [] ∧ ∀ c ∈ w, ¬ c.isWhitespace := by
            intro w hw
            exact hval w (by simp [hw])
          have hv3 : ∀ w ∈ ws3, w ≠ [] ∧ ∀ c ∈ w, ¬ c.isWhitespace := by
            intro w hw
            exact hval w (by simp [hw])
          have hcnt1 := hcnt ws1 hv1
          have hcnt2 := hcnt ws2 hv2
          have hcnt3 := hcnt ws3 hv3
          rw [hl2] at hcnt2
          rw [hl3] at hcnt3
          have hs12 : calculate_similarity (joinSp ws1) (joinSp ws2) ≤ 3 / 5 := by
            unfold calculate_similarity
            exact ratioOf_le_of_sparse _ _ ws1.length hg1 hc12 hcnt1.1 hcnt1.2 hcnt2.2
          have hs23 : calculate_similarity (joinSp ws2) (joinSp ws3) ≤ 3 / 5 := by
            unfold calculate_similarity
            exact ratioOf_le_of_sparse _ _ ws1.length hg1 hc23 hcnt2.1 hcnt2.2 hcnt3.2
          rw [decide_eq_false (not_lt.2 hs12), decide_eq_false (not_lt.2 hs23)]
          rfl

/-- C6, witness: the corrected theorem applied at concrete inputs — the
word group of `"abc def ghi jkl mno pqr stu vwx yz0 123"` repeated three
times is classified repetitive, and three character-disjoint ten-word
groups are classified not repetitive. -/
theorem C6_repetition_witness :
    is_repetitive (3 / 5) (joinSp (cexG1 ++ cexG1 ++ cexG1)) = true ∧
    is_repetitive (3 / 5) (joinSp (cexD1 ++ cexD2 ++ cexD3)) = false :=
  ⟨C6_repetition.1 cexG1 (by decide) (by decide) (by decide) (by decide),
   C6_repetition.2 cexD1 cexD2 cexD3 (by decide) (by decide) (by decide) (by decide)
     (by decide)⟩
